import Mathlib

/-!
# walk-to-mordor: route interpolator, day table and pan/zoom engine

A shallow embedding of `src/app.js` (and of its near-duplicate
`src/walk-to-mordor/app.js`, whose copies of the functions below differ only in
comments and in the names of local variables).

Numbers.  Finite JavaScript numbers are rationals.  The functions are first
written in exact arithmetic.  The interpolator and the day table only ever
divide behind a guard, so they are written over `ℚ` directly.  The gesture
engine divides without a guard, so its transform uses `JsNum`, which keeps the
IEEE special values `Infinity`, `-Infinity` and `NaN` a division by zero
produces.  Where a property depends on rounding, `lerp`, `interpolatePosition`
and `zoomAt` are read a second time with every operation followed by a rounding
(section "Double-precision arithmetic"): the exact reading is the one whose
rounding does nothing, double arithmetic the one that rounds with `roundDouble`.

Errors.  Reading a property of `undefined` throws a `TypeError`; a function that
can throw returns `Except JsError`.
-/

namespace WalkToMordor

/-- The exceptions the embedded functions can raise. -/
inductive JsError where
  | typeError
  | rangeError
  deriving DecidableEq, Repr

/-! ## Route interpolator -/

/-- A route vertex of `route.points`: `{x, y, dKm}`. -/
structure Checkpoint where
  x : ℚ
  y : ℚ
  dKm : ℚ
  deriving DecidableEq, Repr

/-- The route object: `{points, totalKm}`. -/
structure Route where
  points : List Checkpoint
  totalKm : ℚ
  deriving DecidableEq, Repr

/-- The object `{x, y}` returned by `interpolatePosition`. -/
structure Point where
  x : ℚ
  y : ℚ
  deriving DecidableEq, Repr

/-- The function `lerp(a, b, t) { return a + (b - a) * t; }`. -/
def lerp (a b t : ℚ) : ℚ := a + (b - a) * t

/-- The clamped target `Math.max(0, Math.min(targetKm, route.totalKm))`. -/
def clampKm (route : Route) (targetKm : ℚ) : ℚ := max 0 (min targetKm route.totalKm)

/-- The test `clampedKm >= p1.dKm && clampedKm <= p2.dKm` of the segment loop. -/
def inSegment (clampedKm : ℚ) (p1 p2 : Checkpoint) : Bool :=
  decide (clampedKm ≥ p1.dKm) && decide (clampedKm ≤ p2.dKm)

/-- The fraction
`t = segmentDistance > 0 ? (clampedKm - p1.dKm) / segmentDistance : 0`,
together with the divisors of the divisions that were evaluated to obtain it
(none when the guard fails). -/
def segmentT (clampedKm : ℚ) (p1 p2 : Checkpoint) : ℚ × List ℚ :=
  let segmentDistance := p2.dKm - p1.dKm
  if segmentDistance > 0 then ((clampedKm - p1.dKm) / segmentDistance, [segmentDistance])
  else (0, [])

/-- The value returned from inside the loop for the segment `(p1, p2)`. -/
def segmentPoint (clampedKm : ℚ) (p1 p2 : Checkpoint) : Point :=
  let t := (segmentT clampedKm p1 p2).1
  { x := lerp p1.x p2.x t, y := lerp p1.y p2.y t }

/-- The loop `for (let i = 0; i < route.points.length - 1; i++)`: the first
adjacent pair `(points[i], points[i + 1])` that passes the test, if any. -/
def findSegment (clampedKm : ℚ) : List Checkpoint → Option (Checkpoint × Checkpoint)
  | p1 :: p2 :: rest =>
    if inSegment clampedKm p1 p2 then some (p1, p2) else findSegment clampedKm (p2 :: rest)
  | _ => none

/-- The function `interpolatePosition(route, targetKm)`, returning next to the
point the divisors of all divisions evaluated during the call.  After the loop
`route.points[route.points.length - 1]` is `undefined` for an empty array, and
reading `.x` of it throws. -/
def interpolateRun (route : Route) (targetKm : ℚ) : Except JsError (Point × List ℚ) :=
  let clampedKm := clampKm route targetKm
  match findSegment clampedKm route.points with
  | some (p1, p2) => .ok (segmentPoint clampedKm p1 p2, (segmentT clampedKm p1 p2).2)
  | none =>
    match route.points.getLast? with
    | some lastPoint => .ok ({ x := lastPoint.x, y := lastPoint.y }, [])
    | none => .error .typeError

/-- The function `interpolatePosition(route, targetKm)`. -/
def interpolatePosition (route : Route) (targetKm : ℚ) : Except JsError Point :=
  (interpolateRun route targetKm).map Prod.fst

/-- The divisors of the divisions `interpolatePosition` evaluates (empty when it throws). -/
def interpolateDivisors (route : Route) (targetKm : ℚ) : List ℚ :=
  match interpolateRun route targetKm with
  | .ok r => r.2
  | .error _ => []

/-- The coordinates of a checkpoint as a returned point. -/
def Checkpoint.toPoint (p : Checkpoint) : Point := { x := p.x, y := p.y }

/-- The data-model invariant "dKm non-decreasing along the sequence". -/
def NonDecreasing (pts : List Checkpoint) : Prop :=
  List.Pairwise (fun a b => a.dKm ≤ b.dKm) pts

/-- Strictly increasing `dKm` along the sequence. -/
def StrictlyIncreasing (pts : List Checkpoint) : Prop :=
  List.Pairwise (fun a b => a.dKm < b.dKm) pts

/-- The data-model invariant `totalKm` = the last checkpoint's `dKm`. -/
def TotalIsLast (route : Route) : Prop :=
  route.points.getLast?.map Checkpoint.dKm = some route.totalKm

/-- The example route of the specification:
`[{x:0,y:0,d:0}, {x:100,y:0,d:10}, {x:100,y:100,d:20}]`, `totalKm = 20`. -/
def specRoute : Route :=
  { points := [⟨0, 0, 0⟩, ⟨100, 0, 10⟩, ⟨100, 100, 20⟩], totalKm := 20 }

/-- A route with a zero-length segment in the middle and one at the end. -/
def tiedRoute : Route :=
  { points := [⟨0, 0, 0⟩, ⟨10, 0, 5⟩, ⟨20, 0, 5⟩, ⟨30, 0, 10⟩, ⟨40, 0, 10⟩], totalKm := 10 }

/-! ## Day-series table -/

/-- A record of `frodo_days.json`: `{dayIndex, frodoCumulativeKm, label}`, the
day index being an integer. -/
structure Landmark where
  dayIndex : Int
  frodoCumulativeKm : ℚ
  label : String
  deriving DecidableEq, Repr

/-- The inner loop of `buildFrodoDailyKm`: the first adjacent pair
`(landmarks[i], landmarks[i + 1])` with
`day >= landmarks[i].dayIndex && day <= landmarks[i + 1].dayIndex`, if any. -/
def findBracket (day : Int) : List Landmark → Option (Landmark × Landmark)
  | a :: b :: rest =>
    if decide (day ≥ a.dayIndex) && decide (day ≤ b.dayIndex) then some (a, b)
    else findBracket day (b :: rest)
  | _ => none

/-- The body of the outer loop of `buildFrodoDailyKm`: the value stored in
`daily[day]`; `first` and `last` are `landmarks[0]` and
`landmarks[landmarks.length - 1]`, the initial `before` and `after`. -/
def dailyValue (first last : Landmark) (landmarks : List Landmark) (day : Int) : ℚ :=
  let ba := (findBracket day landmarks).getD (first, last)
  let before := ba.1
  let after := ba.2
  if day ≤ before.dayIndex then before.frodoCumulativeKm
  else if day ≥ after.dayIndex then after.frodoCumulativeKm
  else
    let span := after.dayIndex - before.dayIndex
    let t := ((day - before.dayIndex : Int) : ℚ) / ((span : Int) : ℚ)
    before.frodoCumulativeKm + t * (after.frodoCumulativeKm - before.frodoCumulativeKm)

/-- The function `buildFrodoDailyKm(landmarks)`.  The result is the array
`daily`, a hole (an index never assigned) being `none`.  On an empty array
`landmarks[landmarks.length - 1]` is `undefined` and reading `.dayIndex`
throws; `new Array(n)` throws a `RangeError` for negative `n`.  Integers and
array lengths are unbounded here: the limit `2^32 - 1` on the length of an
array is not modelled. -/
def buildFrodoDailyKm (landmarks : List Landmark) : Except JsError (List (Option ℚ)) :=
  match landmarks.head?, landmarks.getLast? with
  | some first, some last =>
    let maxDay := last.dayIndex
    if maxDay + 1 < 0 then .error .rangeError
    else
      let daily : List (Option ℚ) := List.replicate (maxDay + 1).toNat none
      .ok ((List.range maxDay.toNat).foldl
        (fun daily k => daily.set (k + 1) (some (dailyValue first last landmarks ((k : Int) + 1))))
        daily)
  | _, _ => .error .typeError

/-- Landmarks sorted by strictly increasing `dayIndex`. -/
def StrictDays (landmarks : List Landmark) : Prop :=
  List.Pairwise (fun a b => a.dayIndex < b.dayIndex) landmarks

/-- The example series of the specification:
`[{day:1,d:0},{day:10,d:100},{day:200,d:1000}]`. -/
def specLandmarks : List Landmark :=
  [⟨1, 0, "Bag End"⟩, ⟨10, 100, "Bree"⟩, ⟨200, 1000, "Mount Doom"⟩]

/-! ## Day/label lookup (`getLandmarkForDay`, in `src/app.js` only) -/

/-- The first loop of `getLandmarkForDay`:
`for (const lm of frodoDays) { if (lm.dayIndex <= dayIndex) landmark = lm; else break; }`,
started with the current value of `landmark`. -/
def scanLandmark (dayIndex : Int) (landmark : Landmark) : List Landmark → Landmark
  | [] => landmark
  | lm :: rest => if lm.dayIndex ≤ dayIndex then scanLandmark dayIndex lm rest else landmark

/-- The second loop of `getLandmarkForDay`:
`for (const lm of frodoDays) { if (lm.dayIndex > dayIndex) { next = lm; break; } }`,
`null` being `none`. -/
def scanNext (dayIndex : Int) : List Landmark → Option Landmark
  | [] => none
  | lm :: rest => if lm.dayIndex > dayIndex then some lm else scanNext dayIndex rest

/-- The template literal of `getLandmarkForDay`; an integer prints in decimal. -/
def awayText (landmark next : Landmark) (daysUntil : Int) : String :=
  landmark.label ++ " → " ++ next.label ++ " (" ++ toString daysUntil ++ " day"
    ++ (if daysUntil ≠ 1 then "s" else "") ++ " away)"

/-- The function `getLandmarkForDay(dayIndex)`; `frodoDays` is `state.frodoDays`,
`none` while it is `null`.  On an empty array `frodoDays[0]` is `undefined`, both
loops do nothing and reading `landmark.dayIndex` throws. -/
def getLandmarkForDay (frodoDays : Option (List Landmark)) (dayIndex : Int) :
    Except JsError String :=
  match frodoDays with
  | none => .ok ""
  | some [] => .error .typeError
  | some (first :: rest) =>
    let landmark := scanLandmark dayIndex first (first :: rest)
    let next := scanNext dayIndex (first :: rest)
    if landmark.dayIndex = dayIndex then .ok landmark.label
    else
      match next with
      | some next =>
        let daysUntil := next.dayIndex - dayIndex
        .ok (awayText landmark next daysUntil)
      | none => .ok landmark.label

/-! ## JavaScript numbers with the IEEE special values -/

/-- A JavaScript number: a finite value (an exact rational), `Infinity`,
`-Infinity` or `NaN`.  Zero carries no sign; a zero divisor is `+0`, which is
the only zero the engine can divide by (`Math.hypot` never returns `-0`). -/
inductive JsNum where
  | fin (q : ℚ)
  | posInf
  | negInf
  | nan
  deriving DecidableEq, Repr

namespace JsNum

/-- Unary minus. -/
def neg : JsNum → JsNum
  | fin a => fin (-a)
  | posInf => negInf
  | negInf => posInf
  | nan => nan

/-- The operator `+`. -/
def add : JsNum → JsNum → JsNum
  | fin a, fin b => fin (a + b)
  | nan, _ => nan
  | _, nan => nan
  | posInf, negInf => nan
  | negInf, posInf => nan
  | posInf, _ => posInf
  | _, posInf => posInf
  | negInf, _ => negInf
  | _, negInf => negInf

/-- The operator `-`. -/
def sub (a b : JsNum) : JsNum := add a (neg b)

/-- An infinity of the sign of `q`, and `NaN` for `q = 0`. -/
def signedInf (q : ℚ) : JsNum :=
  if 0 < q then posInf else if q < 0 then negInf else nan

/-- The operator `*`. -/
def mul : JsNum → JsNum → JsNum
  | fin a, fin b => fin (a * b)
  | nan, _ => nan
  | _, nan => nan
  | fin a, posInf => signedInf a
  | fin a, negInf => signedInf (-a)
  | posInf, fin b => signedInf b
  | negInf, fin b => signedInf (-b)
  | posInf, posInf => posInf
  | negInf, negInf => posInf
  | posInf, negInf => negInf
  | negInf, posInf => negInf

/-- The operator `/`. -/
def div : JsNum → JsNum → JsNum
  | fin a, fin b => if b = 0 then signedInf a else fin (a / b)
  | nan, _ => nan
  | _, nan => nan
  | fin _, posInf => fin 0
  | fin _, negInf => fin 0
  | posInf, fin b => if 0 ≤ b then posInf else negInf
  | negInf, fin b => if 0 ≤ b then negInf else posInf
  | posInf, posInf => nan
  | posInf, negInf => nan
  | negInf, posInf => nan
  | negInf, negInf => nan

/-- The function `Math.max` on two arguments. -/
def max : JsNum → JsNum → JsNum
  | fin a, fin b => fin (Max.max a b)
  | nan, _ => nan
  | _, nan => nan
  | posInf, _ => posInf
  | _, posInf => posInf
  | negInf, b => b
  | a, negInf => a

/-- The function `Math.min` on two arguments. -/
def min : JsNum → JsNum → JsNum
  | fin a, fin b => fin (Min.min a b)
  | nan, _ => nan
  | _, nan => nan
  | negInf, _ => negInf
  | _, negInf => negInf
  | posInf, b => b
  | a, posInf => a

/-- The comparison `a <= b`, false as soon as one side is `NaN`. -/
def le : JsNum → JsNum → Bool
  | fin a, fin b => decide (a ≤ b)
  | nan, _ => false
  | _, nan => false
  | negInf, _ => true
  | _, posInf => true
  | posInf, _ => false
  | _, negInf => false

instance : Add JsNum := ⟨add⟩
instance : Sub JsNum := ⟨sub⟩
instance : Mul JsNum := ⟨mul⟩
instance : Div JsNum := ⟨div⟩

end JsNum

/-! ## Gesture transform engine (`initializeBasicPanZoom`)

The calls that only act on the browser (`applyTransform`, which writes the style
of the target, `e.preventDefault` and `wrapper.setPointerCapture`) are left out:
none of them reads or writes `zoomState`. -/

/-- A value of the `pointers` map: `{x: e.clientX, y: e.clientY}`. -/
structure PointerPos where
  x : ℚ
  y : ℚ
  deriving DecidableEq, Repr

/-- The fields `left` and `top` of `wrapper.getBoundingClientRect()`. -/
structure Rect where
  left : ℚ
  top : ℚ
  deriving DecidableEq, Repr

/-- The object `zoomState`.  The map `pointers` is the list of its entries in
insertion order, the order `pointers.values()` iterates in.  `lastX`, `lastY`
and `lastPinchDist` only ever receive event coordinates and `Math.hypot` of
finite numbers, so they are finite; `scale`, `x` and `y` are results of
unguarded divisions. -/
structure ZoomState where
  scale : JsNum
  minScale : JsNum
  maxScale : JsNum
  x : JsNum
  y : JsNum
  panning : Bool
  lastX : ℚ
  lastY : ℚ
  pointers : List (Int × PointerPos)
  lastPinchDist : Option ℚ
  deriving DecidableEq, Repr

/-- The initial `zoomState`. -/
def ZoomState.init : ZoomState :=
  { scale := .fin 1, minScale := .fin 1, maxScale := .fin 5, x := .fin 0, y := .fin 0,
    panning := false, lastX := 0, lastY := 0, pointers := [], lastPinchDist := none }

/-- The method `Map.prototype.has`. -/
def mapHas (m : List (Int × PointerPos)) (k : Int) : Bool :=
  m.any (fun e => e.1 == k)

/-- The method `Map.prototype.set`: an existing key keeps its place, a new key goes last. -/
def mapSet : List (Int × PointerPos) → Int → PointerPos → List (Int × PointerPos)
  | [], k, v => [(k, v)]
  | (k', v') :: rest, k, v =>
    if k' = k then (k, v) :: rest else (k', v') :: mapSet rest k v

/-- The method `Map.prototype.delete`. -/
def mapDelete (m : List (Int × PointerPos)) (k : Int) : List (Int × PointerPos) :=
  m.filter (fun e => e.1 != k)

/-- The method `Map.prototype.get`. -/
def mapGet (m : List (Int × PointerPos)) (k : Int) : Option PointerPos :=
  (m.find? (fun e => e.1 == k)).map Prod.snd

/-- The function `clampScale(s)`:
`Math.max(zoomState.minScale, Math.min(zoomState.maxScale, s))`. -/
def clampScale (st : ZoomState) (s : JsNum) : JsNum :=
  JsNum.max st.minScale (JsNum.min st.maxScale s)

/-- The function `zoomAt(clientX, clientY, nextScale)`; `rect` is what
`wrapper.getBoundingClientRect()` returns during the call. -/
def zoomAt (st : ZoomState) (rect : Rect) (clientX clientY : ℚ) (nextScale : JsNum) : ZoomState :=
  let px := clientX - rect.left
  let py := clientY - rect.top
  let contentX := (JsNum.fin px - st.x) / st.scale
  let contentY := (JsNum.fin py - st.y) / st.scale
  let newScale := clampScale st nextScale
  { st with x := JsNum.fin px - contentX * newScale,
            y := JsNum.fin py - contentY * newScale,
            scale := newScale }

/-- An input event, with the bounding rectangle of the wrapper at the time of
the event for the two kinds of event whose handler can call `zoomAt`. -/
inductive Event where
  | wheel (rect : Rect) (clientX clientY deltaY : ℚ)
  | pointerdown (pointerId : Int) (clientX clientY : ℚ)
  | pointermove (rect : Rect) (pointerId : Int) (clientX clientY : ℚ)
  | pointerup (pointerId : Int)
  | pointercancel (pointerId : Int)
  deriving DecidableEq, Repr

/-- The `wheel` listener. -/
def onWheel (st : ZoomState) (rect : Rect) (clientX clientY deltaY : ℚ) : ZoomState :=
  let delta := -deltaY
  let factor : ℚ := if delta > 0 then 11 / 10 else 1 / (11 / 10)
  zoomAt st rect clientX clientY (st.scale * JsNum.fin factor)

/-- The `pointerdown` listener. -/
def onPointerDown (st : ZoomState) (pointerId : Int) (clientX clientY : ℚ) : ZoomState :=
  let st := { st with pointers := mapSet st.pointers pointerId ⟨clientX, clientY⟩ }
  if st.pointers.length = 1 then
    { st with panning := true, lastX := clientX, lastY := clientY }
  else st

/-- The `pointermove` listener; `hypot` is `Math.hypot` on two finite arguments. -/
def onPointerMove (hypot : ℚ → ℚ → ℚ) (st : ZoomState) (rect : Rect) (pointerId : Int)
    (clientX clientY : ℚ) : ZoomState :=
  if !mapHas st.pointers pointerId then st
  else
    let st := { st with pointers := mapSet st.pointers pointerId ⟨clientX, clientY⟩ }
    match st.pointers with
    | [(_, p0), (_, p1)] =>
      let dist := hypot (p0.x - p1.x) (p0.y - p1.y)
      let centerX := (p0.x + p1.x) / 2
      let centerY := (p0.y + p1.y) / 2
      let st :=
        match st.lastPinchDist with
        | some lastPinchDist =>
          zoomAt st rect centerX centerY (st.scale * (JsNum.fin dist / JsNum.fin lastPinchDist))
        | none => st
      { st with lastPinchDist := some dist, panning := false }
    | _ =>
      if st.panning && decide (st.pointers.length = 1) then
        { st with x := st.x + JsNum.fin (clientX - st.lastX),
                  y := st.y + JsNum.fin (clientY - st.lastY),
                  lastX := clientX, lastY := clientY }
      else st

/-- The function `endPointer`, the `pointerup` and `pointercancel` listener. -/
def endPointer (st : ZoomState) (pointerId : Int) : ZoomState :=
  let st := { st with pointers := mapDelete st.pointers pointerId }
  let st := if st.pointers.length < 2 then { st with lastPinchDist := none } else st
  if st.pointers.length = 0 then { st with panning := false } else st

/-- One event handled by its listener. -/
def step (hypot : ℚ → ℚ → ℚ) (st : ZoomState) : Event → ZoomState
  | .wheel rect clientX clientY deltaY => onWheel st rect clientX clientY deltaY
  | .pointerdown pointerId clientX clientY => onPointerDown st pointerId clientX clientY
  | .pointermove rect pointerId clientX clientY =>
    onPointerMove hypot st rect pointerId clientX clientY
  | .pointerup pointerId => endPointer st pointerId
  | .pointercancel pointerId => endPointer st pointerId

/-- The events of a list handled in the order delivered, from the initial state. -/
def run (hypot : ℚ → ℚ → ℚ) (events : List Event) : ZoomState :=
  events.foldl (step hypot) ZoomState.init

/-- The states reachable from the initial state by finitely many events. -/
def Reachable (hypot : ℚ → ℚ → ℚ) (st : ZoomState) : Prop :=
  ∃ events : List Event, run hypot events = st

/-- Two pointers go down on the same spot and one of them reports two moves that
leave it there. -/
def stillPinch : List Event :=
  [.pointerdown 1 120 80, .pointerdown 2 120 80,
   .pointermove ⟨0, 0⟩ 1 120 80, .pointermove ⟨0, 0⟩ 1 120 80]

/-- Two pointers go down and the first one is lifted. -/
def handOver : List Event :=
  [.pointerdown 1 0 0, .pointerdown 2 100 100, .pointerup 1]

/-- A stand-in for `Math.hypot` that is exact on the axes. -/
def axisHypot (a b : ℚ) : ℚ := |a| + |b|

/-- Two pointers pinch, a third one goes down and the first one is lifted. -/
def thirdFinger : List Event :=
  [.pointerdown 1 0 0, .pointerdown 2 10 0, .pointermove ⟨0, 0⟩ 2 10 0,
   .pointerdown 3 100 0, .pointerup 1]

/-- The identifier `id` had a `pointerdown` that no `pointerup` or `pointercancel`
of `id` follows. -/
def DownNotReleased (events : List Event) (id : Int) : Prop :=
  ∃ (before after : List Event) (clientX clientY : ℚ),
    events = before ++ .pointerdown id clientX clientY :: after ∧
    .pointerup id ∉ after ∧ .pointercancel id ∉ after

/-- No event of the list is a `wheel` event. -/
def NoWheel (events : List Event) : Prop :=
  ∀ e ∈ events, ∀ rect clientX clientY deltaY, e ≠ .wheel rect clientX clientY deltaY

/-- What holds between the flags and the number of active pointers in every
reachable state: no pinch distance below two pointers, no panning without a pointer. -/
def FlagsSettled (st : ZoomState) : Prop :=
  (st.pointers.length < 2 → st.lastPinchDist = none) ∧
  (st.pointers.length = 0 → st.panning = false)

/-- The invariant `minScale <= scale <= maxScale`, with the comparisons of JavaScript. -/
def ScaleClamped (st : ZoomState) : Prop :=
  JsNum.le st.minScale st.scale = true ∧ JsNum.le st.scale st.maxScale = true

/-- What the events do preserve: the bounds stay 1 and 5, and the scale is a
finite number in `[1, 5]` or `NaN`. -/
def ScaleClampedOrNaN (st : ZoomState) : Prop :=
  st.minScale = .fin 1 ∧ st.maxScale = .fin 5 ∧
    (st.scale = .nan ∨ ∃ s : ℚ, st.scale = .fin s ∧ 1 ≤ s ∧ s ≤ 5)

/-! ## Double-precision arithmetic

The functions above compute with exact rationals.  Where a property depends on
how a result is rounded, the same source functions are read once more with every
arithmetic operation followed by a rounding `rnd : ℚ → ℚ`: with `rnd = id` this
is the exact reading, with `rnd = roundDouble` it is IEEE double arithmetic on
finite values (every finite double is a rational, and `+`, `-`, `*`, `/` return
the double nearest to the exact result).  Comparisons, `Math.max` and `Math.min`
do not round.  Overflow to `Infinity` and the subnormal range are not modelled. -/

/-- The double nearest to `q`, ties to the even significand: 53 significant bits
and an unbounded exponent. -/
def roundDouble (q : ℚ) : ℚ :=
  if q = 0 then 0
  else
    let e : Int := Int.log 2 |q|
    let ulp : ℚ := 2 ^ (e - 52)
    let m : ℚ := |q| / ulp
    let f : Int := ⌊m⌋
    let r : ℚ := m - f
    let k : Int :=
      if r < 1 / 2 then f else if 1 / 2 < r then f + 1 else if f % 2 = 0 then f else f + 1
    (if q < 0 then -1 else 1) * (k : ℚ) * ulp

/-- What the proofs use of a rounding: 0 and 1 are representable and a positive
number does not round to 0 or below. -/
def Rounding (rnd : ℚ → ℚ) : Prop :=
  rnd 0 = 0 ∧ rnd 1 = 1 ∧ ∀ q : ℚ, 0 < q → 0 < rnd q

/-- The coordinates of the checkpoint are representable. -/
def Checkpoint.Representable (rnd : ℚ → ℚ) (p : Checkpoint) : Prop :=
  rnd p.x = p.x ∧ rnd p.y = p.y

/-- The rounding of a JavaScript number: the special values are kept. -/
def JsNum.round (rnd : ℚ → ℚ) : JsNum → JsNum
  | .fin q => .fin (rnd q)
  | .posInf => .posInf
  | .negInf => .negInf
  | .nan => .nan

namespace Rounded

/-- The function `lerp(a, b, t) { return a + (b - a) * t; }`, each operation rounded. -/
def lerp (rnd : ℚ → ℚ) (a b t : ℚ) : ℚ := rnd (a + rnd (rnd (b - a) * t))

/-- The fraction
`t = segmentDistance > 0 ? (clampedKm - p1.dKm) / segmentDistance : 0`,
each operation rounded. -/
def segmentT (rnd : ℚ → ℚ) (clampedKm : ℚ) (p1 p2 : Checkpoint) : ℚ :=
  let segmentDistance := rnd (p2.dKm - p1.dKm)
  if segmentDistance > 0 then rnd (rnd (clampedKm - p1.dKm) / segmentDistance) else 0

/-- The value returned from inside the loop for the segment `(p1, p2)`. -/
def segmentPoint (rnd : ℚ → ℚ) (clampedKm : ℚ) (p1 p2 : Checkpoint) : Point :=
  let t := segmentT rnd clampedKm p1 p2
  { x := lerp rnd p1.x p2.x t, y := lerp rnd p1.y p2.y t }

/-- The function `interpolatePosition(route, targetKm)`, each operation rounded
(the clamp and the segment test compare and do not round). -/
def interpolatePosition (rnd : ℚ → ℚ) (route : Route) (targetKm : ℚ) : Except JsError Point :=
  let clampedKm := clampKm route targetKm
  match findSegment clampedKm route.points with
  | some (p1, p2) => .ok (segmentPoint rnd clampedKm p1 p2)
  | none =>
    match route.points.getLast? with
    | some lastPoint => .ok { x := lastPoint.x, y := lastPoint.y }
    | none => .error .typeError

/-- The function `zoomAt(clientX, clientY, nextScale)`, each operation rounded. -/
def zoomAt (rnd : ℚ → ℚ) (st : ZoomState) (rect : Rect) (clientX clientY : ℚ)
    (nextScale : JsNum) : ZoomState :=
  let px := rnd (clientX - rect.left)
  let py := rnd (clientY - rect.top)
  let contentX := JsNum.round rnd (JsNum.round rnd (JsNum.fin px - st.x) / st.scale)
  let contentY := JsNum.round rnd (JsNum.round rnd (JsNum.fin py - st.y) / st.scale)
  let newScale := clampScale st nextScale
  { st with x := JsNum.round rnd (JsNum.fin px - JsNum.round rnd (contentX * newScale)),
            y := JsNum.round rnd (JsNum.fin py - JsNum.round rnd (contentY * newScale)),
            scale := newScale }

/-- The `wheel` listener, each operation rounded; the literal `1.1` is the
double nearest to 11/10. -/
def onWheel (rnd : ℚ → ℚ) (st : ZoomState) (rect : Rect) (clientX clientY deltaY : ℚ) :
    ZoomState :=
  let delta := -deltaY
  let factor : ℚ := if delta > 0 then rnd (11 / 10) else rnd (1 / rnd (11 / 10))
  zoomAt rnd st rect clientX clientY (JsNum.round rnd (st.scale * JsNum.fin factor))

end Rounded

/-- A route whose first two checkpoints lie at `x = 0.2` and `x = 0.9`, the
doubles these literals denote: `[(0.2,0,d=0), (0.9,0,d=10), (0,0,d=20)]`,
`totalKm = 20`. -/
def decimalRoute : Route :=
  { points := [⟨roundDouble (1 / 5), 0, 0⟩, ⟨roundDouble (9 / 10), 0, 10⟩, ⟨0, 0, 20⟩],
    totalKm := 20 }

/-- The initial state after a pan that left `x` at the double `0.1`. -/
def pannedState : ZoomState :=
  { ZoomState.init with x := .fin (roundDouble (1 / 10)) }

/-- The state the first three events of `stillPinch` lead to, written out. -/
def stillPinchBefore : ZoomState :=
  { ZoomState.init with pointers := [(1, ⟨120, 80⟩), (2, ⟨120, 80⟩)], lastPinchDist := some 0,
                        lastX := 120, lastY := 80 }

end WalkToMordor

/-! # Theorems -/

namespace WalkToMordor

/-! ## Route interpolator: auxiliary facts -/

theorem lerp_zero (a b : ℚ) : lerp a b 0 = a := by
  simp [lerp]

theorem segmentPoint_degenerate (c : ℚ) (p1 p2 : Checkpoint) (h : p2.dKm = p1.dKm) :
    segmentPoint c p1 p2 = p1.toPoint := by
  unfold segmentPoint segmentT
  simp [h, lerp_zero, Checkpoint.toPoint]

/-- Along a non-decreasing sequence every checkpoint's `dKm` is at most the last one's. -/
theorem dKm_le_last (pts : List Checkpoint) (hnd : NonDecreasing pts) (k : Nat)
    (p l : Checkpoint) (hk : pts[k]? = some p) (hl : pts.getLast? = some l) :
    p.dKm ≤ l.dKm := by
  induction pts generalizing k with
  | nil => simp at hk
  | cons p0 tl ih =>
    have hnd0 : ∀ q ∈ tl, p0.dKm ≤ q.dKm := (List.pairwise_cons.mp hnd).1
    have hndtl : NonDecreasing tl := (List.pairwise_cons.mp hnd).2
    cases tl with
    | nil =>
      simp at hl
      subst hl
      cases k with
      | zero => simp at hk; subst hk; exact le_refl _
      | succ k => simp at hk
    | cons p1 rest =>
      have hl' : (p1 :: rest).getLast? = some l := by simpa [List.getLast?_cons_cons] using hl
      cases k with
      | zero =>
        simp at hk
        subst hk
        exact hnd0 l (List.mem_of_getLast?_eq_some hl')
      | succ k =>
        exact ih hndtl k (by simpa using hk) hl'

/-- Along a sorted sequence an earlier entry is related to a later one. -/
theorem pairwise_getElem? {R : Checkpoint → Checkpoint → Prop} (pts : List Checkpoint)
    (h : List.Pairwise R pts) (j k : Nat) (q p : Checkpoint) (hjk : j < k)
    (hj : pts[j]? = some q) (hk : pts[k]? = some p) : R q p := by
  obtain ⟨hj1, hj2⟩ := List.getElem?_eq_some_iff.mp hj
  obtain ⟨hk1, hk2⟩ := List.getElem?_eq_some_iff.mp hk
  have := List.pairwise_iff_getElem.mp h j k hj1 hk1 hjk
  rwa [hj2, hk2] at this

theorem interpolatePosition_of_findSegment (route : Route) (targetKm : ℚ) (a b : Checkpoint)
    (h : findSegment (clampKm route targetKm) route.points = some (a, b)) :
    interpolatePosition route targetKm = .ok (segmentPoint (clampKm route targetKm) a b) := by
  simp [interpolatePosition, interpolateRun, h, Except.map]

theorem clampKm_of_mem (route : Route) (targetKm : ℚ) (h0 : 0 ≤ targetKm)
    (h : targetKm ≤ route.totalKm) : clampKm route targetKm = targetKm := by
  unfold clampKm
  rw [min_eq_left h, max_eq_right h0]

/-- The loop returns the least segment that passes the test. -/
theorem findSegment_least (c : ℚ) :
    ∀ (pts : List Checkpoint) (i : Nat) (p1 p2 : Checkpoint),
      pts[i]? = some p1 → pts[i + 1]? = some p2 → p1.dKm ≤ c → c ≤ p2.dKm →
      (∀ j q1 q2, j < i → pts[j]? = some q1 → pts[j + 1]? = some q2 →
        ¬ (q1.dKm ≤ c ∧ c ≤ q2.dKm)) →
      findSegment c pts = some (p1, p2) := by
  intro pts
  induction pts with
  | nil => intro i p1 p2 h1; simp at h1
  | cons p0 tl ih =>
    intro i p1 p2 h1 h2 hlo hhi hleast
    cases tl with
    | nil => simp at h2
    | cons q rest =>
      cases i with
      | zero =>
        simp at h1 h2
        subst h1 h2
        simp [findSegment, inSegment, hlo, hhi]
      | succ i =>
        have hno : ¬ (p0.dKm ≤ c ∧ c ≤ q.dKm) := hleast 0 p0 q (by omega) (by simp) (by simp)
        have hrec : findSegment c (q :: rest) = some (p1, p2) := by
          apply ih i p1 p2 (by simpa using h1) (by simpa using h2) hlo hhi
          intro j q1 q2 hj hq1 hq2
          exact hleast (j + 1) q1 q2 (by omega) (by simpa using hq1) (by simpa using hq2)
        rw [findSegment]
        have hfalse : inSegment c p0 q = false := by
          simp only [inSegment, ge_iff_le, Bool.and_eq_false_iff, decide_eq_false_iff_not]
          by_cases h : p0.dKm ≤ c
          · exact Or.inr (fun h' => hno ⟨h, h'⟩)
          · exact Or.inl h
        simp [hfalse, hrec]

/-! ## Route interpolator: the claims -/

/-- C1, the failing inputs.  On `[(0,0,d=5), (10,0,d=10)]` the target -1, before
the route, is answered with the last checkpoint `(10, 0)` and not with the first;
on `[(0,0,d=0), (10,0,d=10), (20,0,d=10)]` the target 11, past the end, is
answered with `(10, 0)` and not with the last checkpoint `(20, 0)`.  Both routes
meet the data-model invariant. -/
theorem C1_wrong_endpoint :
    (2 ≤ (Route.mk [⟨0, 0, 5⟩, ⟨10, 0, 10⟩] 10).points.length ∧
      NonDecreasing (Route.mk [⟨0, 0, 5⟩, ⟨10, 0, 10⟩] 10).points ∧
      TotalIsLast (Route.mk [⟨0, 0, 5⟩, ⟨10, 0, 10⟩] 10) ∧
      (-1 : ℚ) < 0 ∧
      interpolatePosition (Route.mk [⟨0, 0, 5⟩, ⟨10, 0, 10⟩] 10) (-1) = .ok ⟨10, 0⟩ ∧
      (⟨10, 0⟩ : Point) ≠ (⟨0, 0, 5⟩ : Checkpoint).toPoint) ∧
    (2 ≤ (Route.mk [⟨0, 0, 0⟩, ⟨10, 0, 10⟩, ⟨20, 0, 10⟩] 10).points.length ∧
      NonDecreasing (Route.mk [⟨0, 0, 0⟩, ⟨10, 0, 10⟩, ⟨20, 0, 10⟩] 10).points ∧
      TotalIsLast (Route.mk [⟨0, 0, 0⟩, ⟨10, 0, 10⟩, ⟨20, 0, 10⟩] 10) ∧
      (10 : ℚ) < 11 ∧
      interpolatePosition (Route.mk [⟨0, 0, 0⟩, ⟨10, 0, 10⟩, ⟨20, 0, 10⟩] 10) 11 = .ok ⟨10, 0⟩ ∧
      (⟨10, 0⟩ : Point) ≠ (⟨20, 0, 10⟩ : Checkpoint).toPoint) := by
  refine ⟨⟨by simp, by norm_num [NonDecreasing], by simp [TotalIsLast], by norm_num, ?_, ?_⟩,
    ⟨by simp, by norm_num [NonDecreasing], by simp [TotalIsLast], by norm_num, ?_, ?_⟩⟩
  · norm_num [interpolatePosition, interpolateRun, clampKm, findSegment, inSegment, Except.map]
  · simp [Checkpoint.toPoint]
  · norm_num [interpolatePosition, interpolateRun, clampKm, findSegment, inSegment, segmentPoint,
      segmentT, lerp, Except.map]
  · simp [Checkpoint.toPoint]

/-- C2, as stated, fails: on `tiedRoute` the checkpoints 1 and 2 share
`dKm = 5`, and the target 5 (the `dKm` of checkpoint 2, at `(20, 0)`) is
answered with checkpoint 1, at `(10, 0)`. -/
theorem C2_counterexample :
    2 ≤ tiedRoute.points.length ∧ NonDecreasing tiedRoute.points ∧ TotalIsLast tiedRoute ∧
    tiedRoute.points[2]? = some ⟨20, 0, 5⟩ ∧ (0 : ℚ) ≤ (⟨20, 0, 5⟩ : Checkpoint).dKm ∧
    interpolatePosition tiedRoute (⟨20, 0, 5⟩ : Checkpoint).dKm = .ok ⟨10, 0⟩ ∧
    (⟨10, 0⟩ : Point) ≠ (⟨20, 0, 5⟩ : Checkpoint).toPoint := by
  refine ⟨by simp [tiedRoute], by norm_num [tiedRoute, NonDecreasing],
    by simp [tiedRoute, TotalIsLast], by simp [tiedRoute], by norm_num, ?_, by simp [Checkpoint.toPoint]⟩
  norm_num [tiedRoute, interpolatePosition, interpolateRun, clampKm, findSegment, inSegment,
    segmentPoint, segmentT, lerp, Except.map]

/-- C3.  Let `c = max(0, min(targetKm, totalKm))` and let `i` be the least
index with `dKm_i <= c <= dKm_(i+1)`.  If `dKm_(i+1) > dKm_i` then
`interpolatePosition` returns
`(x_i + t*(x_(i+1) - x_i), y_i + t*(y_(i+1) - y_i))` with
`t = (c - dKm_i) / (dKm_(i+1) - dKm_i)`.  This holds for every route, the
well-formed ones in particular. -/
theorem C3_interpolation_formula (route : Route) (targetKm : ℚ) (i : Nat) (p1 p2 : Checkpoint)
    (h1 : route.points[i]? = some p1) (h2 : route.points[i + 1]? = some p2)
    (hlo : p1.dKm ≤ max 0 (min targetKm route.totalKm))
    (hhi : max 0 (min targetKm route.totalKm) ≤ p2.dKm)
    (hleast : ∀ j q1 q2, j < i → route.points[j]? = some q1 → route.points[j + 1]? = some q2 →
      ¬ (q1.dKm ≤ max 0 (min targetKm route.totalKm) ∧
          max 0 (min targetKm route.totalKm) ≤ q2.dKm))
    (hpos : p1.dKm < p2.dKm) :
    interpolatePosition route targetKm =
      .ok { x := p1.x + (max 0 (min targetKm route.totalKm) - p1.dKm) / (p2.dKm - p1.dKm)
                  * (p2.x - p1.x),
            y := p1.y + (max 0 (min targetKm route.totalKm) - p1.dKm) / (p2.dKm - p1.dKm)
                  * (p2.y - p1.y) } := by
  have hfs : findSegment (clampKm route targetKm) route.points = some (p1, p2) :=
    findSegment_least _ route.points i p1 p2 h1 h2 hlo hhi hleast
  rw [interpolatePosition_of_findSegment route targetKm p1 p2 hfs]
  have hp : p2.dKm - p1.dKm > 0 := sub_pos.mpr hpos
  simp only [segmentPoint, segmentT, hp, if_true, lerp, clampKm]
  congr 2 <;> ring

/-- C3, the examples of the specification: on the route
`[(0,0,d=0), (100,0,d=10), (100,100,d=20)]` with `totalKm = 20` the targets
5, 15 and 999 give `(50,0)`, `(100,50)` and `(100,100)`. -/
theorem C3_interpolation_formula_witness :
    interpolatePosition specRoute 5 = .ok ⟨50, 0⟩ ∧
    interpolatePosition specRoute 15 = .ok ⟨100, 50⟩ ∧
    interpolatePosition specRoute 999 = .ok ⟨100, 100⟩ := by
  refine ⟨?_, ?_, ?_⟩
  · have h := C3_interpolation_formula specRoute 5 0 ⟨0, 0, 0⟩ ⟨100, 0, 10⟩
      (by simp [specRoute]) (by simp [specRoute]) (by norm_num [specRoute])
      (by norm_num [specRoute]) (by intro j q1 q2 hj; omega) (by norm_num)
    rw [h]; norm_num [specRoute]
  · have h := C3_interpolation_formula specRoute 15 1 ⟨100, 0, 10⟩ ⟨100, 100, 20⟩
      (by simp [specRoute]) (by simp [specRoute]) (by norm_num [specRoute])
      (by norm_num [specRoute])
      (by
        intro j q1 q2 hj hq1 hq2
        interval_cases j
        simp [specRoute] at hq1 hq2
        subst hq1 hq2
        norm_num [specRoute])
      (by norm_num)
    rw [h]; norm_num [specRoute]
  · have h := C3_interpolation_formula specRoute 999 1 ⟨100, 0, 10⟩ ⟨100, 100, 20⟩
      (by simp [specRoute]) (by simp [specRoute]) (by norm_num [specRoute])
      (by norm_num [specRoute])
      (by
        intro j q1 q2 hj hq1 hq2
        interval_cases j
        simp [specRoute] at hq1 hq2
        subst hq1 hq2
        norm_num [specRoute])
      (by norm_num)
    rw [h]; norm_num [specRoute]

/-- C8, as stated, fails for a single-checkpoint route: the loop does not run
and the function returns that checkpoint instead of raising. -/
theorem C8_counterexample :
    (Route.mk [⟨3, 4, 0⟩] 0).points.length < 2 ∧
    interpolatePosition (Route.mk [⟨3, 4, 0⟩] 0) 7 = .ok ⟨3, 4⟩ := by
  constructor
  · simp
  · simp [interpolatePosition, interpolateRun, findSegment, Except.map]

/-- C8, amended.  On the empty route `interpolatePosition` raises (a
`TypeError`) for every `totalKm` and `targetKm`; on a route with a single
checkpoint it returns that checkpoint's coordinates for every `totalKm` and
`targetKm`. -/
theorem C8_degenerate_routes :
    (∀ totalKm targetKm : ℚ,
      interpolatePosition { points := [], totalKm := totalKm } targetKm = .error .typeError) ∧
    (∀ (p : Checkpoint) (totalKm targetKm : ℚ),
      interpolatePosition { points := [p], totalKm := totalKm } targetKm = .ok p.toPoint) := by
  constructor
  · intro totalKm targetKm
    simp [interpolatePosition, interpolateRun, findSegment, Except.map]
  · intro p totalKm targetKm
    simp [interpolatePosition, interpolateRun, findSegment, Except.map, Checkpoint.toPoint]

/-- C9.  For every route (those with at least two checkpoints in particular,
the only ones with a segment) and every target: if the
selected segment (the first `i` with `dKm_i <= clamped <= dKm_(i+1)`) has
`dKm_(i+1) = dKm_i`, then no division is evaluated, the fraction `t` is 0 and
the result is exactly checkpoint `i`'s coordinates; and every division that
`interpolatePosition` does evaluate has a strictly positive divisor. -/
theorem C9_no_division_by_zero (route : Route) (targetKm : ℚ) :
    (∀ (i : Nat) (p1 p2 : Checkpoint),
      route.points[i]? = some p1 → route.points[i + 1]? = some p2 →
      p1.dKm ≤ clampKm route targetKm → clampKm route targetKm ≤ p2.dKm →
      (∀ j q1 q2, j < i → route.points[j]? = some q1 → route.points[j + 1]? = some q2 →
        ¬ (q1.dKm ≤ clampKm route targetKm ∧ clampKm route targetKm ≤ q2.dKm)) →
      p2.dKm = p1.dKm →
      interpolateDivisors route targetKm = [] ∧
      (segmentT (clampKm route targetKm) p1 p2).1 = 0 ∧
      interpolatePosition route targetKm = .ok p1.toPoint) ∧
    (∀ d ∈ interpolateDivisors route targetKm, 0 < d) := by
  constructor
  · intro i p1 p2 h1 h2 hlo hhi hleast heq
    have hfs : findSegment (clampKm route targetKm) route.points = some (p1, p2) :=
      findSegment_least _ route.points i p1 p2 h1 h2 hlo hhi hleast
    refine ⟨?_, ?_, ?_⟩
    · simp [interpolateDivisors, interpolateRun, hfs, segmentT, heq]
    · simp [segmentT, heq]
    · rw [interpolatePosition_of_findSegment route targetKm p1 p2 hfs,
        segmentPoint_degenerate _ p1 p2 heq]
  · intro d hd
    unfold interpolateDivisors interpolateRun at hd
    cases hfs : findSegment (clampKm route targetKm) route.points with
    | none =>
      cases hlast : route.points.getLast? with
      | none => simp [hfs, hlast] at hd
      | some l => simp [hfs, hlast] at hd
    | some ab =>
      obtain ⟨a, b⟩ := ab
      by_cases hpos : b.dKm - a.dKm > 0
      · simp [hfs, segmentT, hpos] at hd
        rw [hd]; exact hpos
      · simp [hfs, segmentT, hpos] at hd

/-- C9 on `tiedRoute` at 5 (one division, by 5) and on a route whose only
segment has length zero (no division, `t = 0`, the first checkpoint). -/
theorem C9_no_division_by_zero_witness :
    (interpolateDivisors tiedRoute 5 = [5] ∧
      interpolateDivisors (Route.mk [⟨1, 2, 0⟩, ⟨3, 4, 0⟩] 0) 9 = [] ∧
      (segmentT (clampKm (Route.mk [⟨1, 2, 0⟩, ⟨3, 4, 0⟩] 0) 9) ⟨1, 2, 0⟩ ⟨3, 4, 0⟩).1 = 0 ∧
      interpolatePosition (Route.mk [⟨1, 2, 0⟩, ⟨3, 4, 0⟩] 0) 9 = .ok ⟨1, 2⟩) ∧
    (∀ d ∈ interpolateDivisors tiedRoute 5, 0 < d) := by
  refine ⟨⟨?_, ?_⟩, (C9_no_division_by_zero tiedRoute 5).2⟩
  · norm_num [tiedRoute, interpolateDivisors, interpolateRun, clampKm, findSegment, inSegment,
      segmentT]
  · exact (C9_no_division_by_zero (Route.mk [⟨1, 2, 0⟩, ⟨3, 4, 0⟩] 0) 9).1 0
      ⟨1, 2, 0⟩ ⟨3, 4, 0⟩ (by simp) (by simp) (by norm_num [clampKm]) (by norm_num [clampKm])
      (by intro j q1 q2 hj; omega) rfl

/-! ## Day-series table -/

/-- The loop `for (let day = 1; day <= maxDay; day++) daily[day] = g(day)` on an
array long enough: the length is kept, index 0 is untouched, the indices
`1..n` hold the assigned values and the indices above `n` are untouched. -/
theorem foldl_set_range (g : Nat → ℚ) (n : Nat) (l : List (Option ℚ)) :
    ((List.range n).foldl (fun daily k => daily.set (k + 1) (some (g k))) l).length = l.length ∧
    ∀ d, (d = 0 ∨ n < d →
        ((List.range n).foldl (fun daily k => daily.set (k + 1) (some (g k))) l)[d]? = l[d]?) ∧
      (1 ≤ d → d ≤ n → d < l.length →
        ((List.range n).foldl (fun daily k => daily.set (k + 1) (some (g k))) l)[d]?
          = some (some (g (d - 1)))) := by
  induction n with
  | zero =>
    refine ⟨by simp, fun d => ⟨by simp, ?_⟩⟩
    intro h1 h2; omega
  | succ n ih =>
    obtain ⟨ihlen, ihd⟩ := ih
    rw [List.range_succ, List.foldl_append]
    simp only [List.foldl_cons, List.foldl_nil]
    refine ⟨by rw [List.length_set, ihlen], fun d => ⟨?_, ?_⟩⟩
    · intro hd
      rw [List.getElem?_set_ne (by omega)]
      exact (ihd d).1 (by omega)
    · intro h1 h2 h3
      by_cases hdn : d = n + 1
      · subst hdn
        rw [List.getElem?_set_eq_of_lt _ (by rw [ihlen]; exact h3)]
        simp
      · rw [List.getElem?_set_ne (by omega)]
        exact (ihd d).2 h1 (by omega) h3

/-- On a landmark's own day the inner loop selects a pair that holds the
landmark, as `before`, or as `after` with `before` strictly earlier. -/
theorem findBracket_at_landmark (L : Landmark) :
    ∀ (lms : List Landmark), StrictDays lms → L ∈ lms → 2 ≤ lms.length →
      ∃ a b, findBracket L.dayIndex lms = some (a, b) ∧
        (a = L ∨ (b = L ∧ a.dayIndex < L.dayIndex)) := by
  intro lms
  induction lms with
  | nil => intro _ hmem; simp at hmem
  | cons p0 tl ih =>
    intro hs hmem hlen
    cases tl with
    | nil => simp at hlen
    | cons p1 rest =>
      have hs0 : ∀ q ∈ p1 :: rest, p0.dayIndex < q.dayIndex := (List.pairwise_cons.mp hs).1
      have hstl : StrictDays (p1 :: rest) := (List.pairwise_cons.mp hs).2
      have h01 : p0.dayIndex < p1.dayIndex := hs0 p1 (by simp)
      rcases List.mem_cons.mp hmem with h | h
      · subst h
        exact ⟨L, p1, by simp [findBracket, le_of_lt h01], Or.inl rfl⟩
      · rcases List.mem_cons.mp h with h' | h'
        · subst h'
          exact ⟨p0, L, by simp [findBracket, le_of_lt h01], Or.inr ⟨rfl, h01⟩⟩
        · have h1L : p1.dayIndex < L.dayIndex :=
            (List.pairwise_cons.mp hstl).1 L h'
          have hlen' : 2 ≤ (p1 :: rest).length := by
            cases rest with
            | nil => simp at h'
            | cons _ _ => simp
          obtain ⟨a, b, hfb, hab⟩ := ih hstl h hlen'
          refine ⟨a, b, ?_, hab⟩
          rw [findBracket]
          simp [not_le.mpr h1L, hfb]

/-- The value computed for a landmark's own day is the landmark's cumulative distance. -/
theorem dailyValue_at_landmark (lms : List Landmark) (first last L : Landmark)
    (hs : StrictDays lms) (hfirst : lms.head? = some first) (hmem : L ∈ lms) :
    dailyValue first last lms L.dayIndex = L.frodoCumulativeKm := by
  by_cases hlen : 2 ≤ lms.length
  · obtain ⟨a, b, hfb, hab⟩ := findBracket_at_landmark L lms hs hmem hlen
    unfold dailyValue
    rcases hab with h | ⟨h, hlt⟩
    · subst h
      simp [hfb]
    · subst h
      simp [hfb, not_le.mpr hlt]
  · match lms, hfirst, hmem, hlen with
    | [], _, hmem, _ => simp at hmem
    | [p], hfirst, hmem, _ =>
      simp at hfirst hmem
      subst hfirst hmem
      simp [dailyValue, findBracket]
    | _ :: _ :: _, _, _, hlen => simp at hlen

/-- In a strictly sorted series every landmark's day lies between the first and the last day. -/
theorem dayIndex_bounds (lms : List Landmark) (first last L : Landmark)
    (hs : StrictDays lms) (hfirst : lms.head? = some first) (hlast : lms.getLast? = some last)
    (hmem : L ∈ lms) : first.dayIndex ≤ L.dayIndex ∧ L.dayIndex ≤ last.dayIndex := by
  constructor
  · cases lms with
    | nil => simp at hmem
    | cons p0 tl =>
      simp at hfirst
      subst hfirst
      rcases List.mem_cons.mp hmem with h | h
      · rw [h]
      · exact le_of_lt ((List.pairwise_cons.mp hs).1 L h)
  · obtain ⟨ys, hys⟩ := List.getLast?_eq_some_iff.mp hlast
    subst hys
    rcases List.mem_append.mp hmem with h | h
    · exact le_of_lt ((List.pairwise_append.mp hs).2.2 L h last (by simp))
    · simp at h
      rw [h]

/-- C6.  For a non-empty landmark sequence sorted by strictly increasing
`dayIndex` with first `dayIndex >= 1`, `buildFrodoDailyKm` returns an array
of length `maxDay + 1` (no index above `maxDay`, the last landmark's
`dayIndex`) whose index 0 is a hole and whose indices `1..maxDay` all hold a
value (exactly `maxDay` entries), and for every landmark `L` the entry at
`L.dayIndex` is exactly `L.frodoCumulativeKm`. -/
theorem C6_daily_table (landmarks : List Landmark) (first last : Landmark)
    (hfirst : landmarks.head? = some first) (hlast : landmarks.getLast? = some last)
    (hs : StrictDays landmarks) (h1 : 1 ≤ first.dayIndex) :
    ∃ daily, buildFrodoDailyKm landmarks = .ok daily ∧
      (daily.length : Int) = last.dayIndex + 1 ∧
      daily[0]? = some none ∧
      (∀ d : Nat, 1 ≤ d → (d : Int) ≤ last.dayIndex → ∃ v, daily[d]? = some (some v)) ∧
      (∀ L ∈ landmarks, daily[L.dayIndex.toNat]? = some (some L.frodoCumulativeKm)) := by
  have hlastmem : last ∈ landmarks := List.mem_of_getLast?_eq_some hlast
  have hmax : 1 ≤ last.dayIndex :=
    le_trans h1 (dayIndex_bounds landmarks first last last hs hfirst hlast hlastmem).1
  have hfold := foldl_set_range
    (fun k => dailyValue first last landmarks ((k : Int) + 1)) last.dayIndex.toNat
    (List.replicate (last.dayIndex + 1).toNat none)
  obtain ⟨hlen, hd⟩ := hfold
  refine ⟨(List.range last.dayIndex.toNat).foldl
      (fun daily k => daily.set (k + 1) (some (dailyValue first last landmarks ((k : Int) + 1))))
      (List.replicate (last.dayIndex + 1).toNat none), ?_, ?_, ?_, ?_, ?_⟩
  · simp only [buildFrodoDailyKm, hfirst, hlast]
    rw [if_neg (by omega)]
  · rw [hlen, List.length_replicate]
    omega
  · rw [(hd 0).1 (Or.inl rfl)]
    rw [List.getElem?_replicate]
    rw [if_pos (by omega)]
  · intro d hd1 hd2
    exact ⟨_, (hd d).2 hd1 (by omega) (by rw [List.length_replicate]; omega)⟩
  · intro L hL
    obtain ⟨hlo, hhi⟩ := dayIndex_bounds landmarks first last L hs hfirst hlast hL
    rw [(hd L.dayIndex.toNat).2 (by omega) (by omega) (by rw [List.length_replicate]; omega)]
    have hcast : (((L.dayIndex.toNat - 1 : Nat) : Int) + 1) = L.dayIndex := by omega
    simp only [hcast]
    rw [dailyValue_at_landmark landmarks first last L hs hfirst hL]

/-- C6 on the example series of the specification. -/
theorem C6_daily_table_witness :
    ∃ daily, buildFrodoDailyKm specLandmarks = .ok daily ∧
      (daily.length : Int) = 200 + 1 ∧
      daily[0]? = some none ∧
      (∀ d : Nat, 1 ≤ d → (d : Int) ≤ 200 → ∃ v, daily[d]? = some (some v)) ∧
      (∀ L ∈ specLandmarks, daily[L.dayIndex.toNat]? = some (some L.frodoCumulativeKm)) :=
  C6_daily_table specLandmarks ⟨1, 0, "Bag End"⟩ ⟨200, 1000, "Mount Doom"⟩
    (by simp [specLandmarks]) (by simp [specLandmarks])
    (by norm_num [specLandmarks, StrictDays]) (by norm_num)

/-! ## Gesture transform engine -/

namespace JsNum

@[simp] theorem fin_add_fin (a b : ℚ) : (fin a + fin b : JsNum) = fin (a + b) := rfl

@[simp] theorem fin_sub_fin (a b : ℚ) : (fin a - fin b : JsNum) = fin (a - b) := by
  show add (fin a) (neg (fin b)) = fin (a - b)
  simp [add, neg, sub_eq_add_neg]

@[simp] theorem fin_mul_fin (a b : ℚ) : (fin a * fin b : JsNum) = fin (a * b) := rfl

theorem fin_div_fin (a b : ℚ) (h : b ≠ 0) : (fin a / fin b : JsNum) = fin (a / b) := by
  show div (fin a) (fin b) = fin (a / b)
  simp [div, h]

@[simp] theorem zero_div_zero : (fin 0 / fin 0 : JsNum) = nan := by
  show div (fin 0) (fin 0) = nan
  simp [div, signedInf]

@[simp] theorem mul_nan (a : JsNum) : (a * nan : JsNum) = nan := by
  show mul a nan = nan
  cases a <;> rfl

@[simp] theorem nan_mul (a : JsNum) : (nan * a : JsNum) = nan := by
  show mul nan a = nan
  cases a <;> rfl

@[simp] theorem sub_nan (a : JsNum) : (a - nan : JsNum) = nan := by
  show add a (neg nan) = nan
  cases a <;> rfl

@[simp] theorem min_nan (a : JsNum) : min a nan = nan := by
  cases a <;> rfl

@[simp] theorem max_nan (a : JsNum) : max a nan = nan := by
  cases a <;> rfl

@[simp] theorem le_nan (a : JsNum) : le a nan = false := by
  cases a <;> rfl

end JsNum

/-- Between the bounds 1 and 5 the clamp of anything but `NaN` is a finite number in `[1, 5]`. -/
theorem clampScale_fin (st : ZoomState) (nextScale : JsNum)
    (hmin : st.minScale = .fin 1) (hmax : st.maxScale = .fin 5) (hns : nextScale ≠ .nan) :
    ∃ m : ℚ, clampScale st nextScale = .fin m ∧ 1 ≤ m ∧ m ≤ 5 := by
  unfold clampScale
  rw [hmin, hmax]
  cases nextScale with
  | fin q =>
    refine ⟨max 1 (min 5 q), rfl, le_max_left _ _, max_le (by norm_num) (min_le_left _ _)⟩
  | posInf => exact ⟨5, rfl, by norm_num, le_refl _⟩
  | negInf => exact ⟨1, rfl, le_refl _, by norm_num⟩
  | nan => exact absurd rfl hns

/-- The clamp of `NaN` is `NaN`. -/
theorem clampScale_nan (st : ZoomState) : clampScale st .nan = .nan := by
  simp [clampScale]

theorem clampScale_cases (st : ZoomState) (nextScale : JsNum)
    (hmin : st.minScale = .fin 1) (hmax : st.maxScale = .fin 5) :
    clampScale st nextScale = .nan ∨
      ∃ s : ℚ, clampScale st nextScale = .fin s ∧ 1 ≤ s ∧ s ≤ 5 := by
  by_cases hns : nextScale = .nan
  · left
    rw [hns]
    exact clampScale_nan st
  · right
    exact clampScale_fin st nextScale hmin hmax hns

theorem zoomAt_scaleClampedOrNaN (st : ZoomState) (rect : Rect) (clientX clientY : ℚ)
    (nextScale : JsNum) (h : ScaleClampedOrNaN st) :
    ScaleClampedOrNaN (zoomAt st rect clientX clientY nextScale) :=
  ⟨h.1, h.2.1, clampScale_cases st nextScale h.1 h.2.1⟩

theorem step_scaleClampedOrNaN (hypot : ℚ → ℚ → ℚ) (st : ZoomState) (e : Event)
    (h : ScaleClampedOrNaN st) : ScaleClampedOrNaN (step hypot st e) := by
  cases e with
  | wheel rect clientX clientY deltaY =>
    exact zoomAt_scaleClampedOrNaN st rect clientX clientY _ h
  | pointerdown pointerId clientX clientY =>
    simp only [step, onPointerDown]
    split <;> exact h
  | pointermove rect pointerId clientX clientY =>
    simp only [step, onPointerMove]
    split
    · exact h
    · split
      · split
        · rename_i p0 _ p1 _ _ lastPinchDist _
          exact ⟨h.1, h.2.1, clampScale_cases
            { st with pointers := mapSet st.pointers pointerId ⟨clientX, clientY⟩ }
            (st.scale * (JsNum.fin (hypot (p0.x - p1.x) (p0.y - p1.y)) / JsNum.fin lastPinchDist))
            h.1 h.2.1⟩
        · exact h
      · split <;> exact h
  | pointerup pointerId =>
    simp only [step, endPointer]
    split <;> split <;> exact h
  | pointercancel pointerId =>
    simp only [step, endPointer]
    split <;> split <;> exact h

/-- In every reachable state the scale is a finite number in `[1, 5]` or `NaN`. -/
theorem reachable_scaleClampedOrNaN (hypot : ℚ → ℚ → ℚ) (events : List Event) :
    ScaleClampedOrNaN (run hypot events) := by
  unfold run
  have hinit : ScaleClampedOrNaN ZoomState.init :=
    ⟨rfl, rfl, Or.inr ⟨1, rfl, le_refl _, by norm_num⟩⟩
  generalize ZoomState.init = st at hinit
  induction events generalizing st with
  | nil => exact hinit
  | cons e es ih => exact ih (step hypot st e) (step_scaleClampedOrNaN hypot st e hinit)

/-- In exact arithmetic, with scale in `[1, 5]`, a finite translation and a
desired scale other than `NaN`, the content-space coordinate recovered at the
anchor is the same after `zoomAt` as before. -/
theorem zoomAt_anchor_exact (st : ZoomState) (rect : Rect) (clientX clientY : ℚ)
    (nextScale : JsNum) (s x y : ℚ)
    (hmin : st.minScale = .fin 1) (hmax : st.maxScale = .fin 5)
    (hscale : st.scale = .fin s) (h1 : 1 ≤ s) (_h5 : s ≤ 5)
    (hx : st.x = .fin x) (hy : st.y = .fin y) (hns : nextScale ≠ .nan) :
    (JsNum.fin (clientX - rect.left) - (zoomAt st rect clientX clientY nextScale).x)
        / (zoomAt st rect clientX clientY nextScale).scale
      = (JsNum.fin (clientX - rect.left) - st.x) / st.scale ∧
    (JsNum.fin (clientY - rect.top) - (zoomAt st rect clientX clientY nextScale).y)
        / (zoomAt st rect clientX clientY nextScale).scale
      = (JsNum.fin (clientY - rect.top) - st.y) / st.scale := by
  obtain ⟨m, hm, hm1, _⟩ := clampScale_fin st nextScale hmin hmax hns
  have hs0 : s ≠ 0 := by linarith
  have hm0 : m ≠ 0 := by linarith
  simp only [zoomAt, hm, hscale, hx, hy, JsNum.fin_sub_fin, JsNum.fin_mul_fin,
    JsNum.fin_div_fin _ _ hs0, JsNum.fin_div_fin _ _ hm0]
  constructor
  · congr 1
    field_simp
    ring
  · congr 1
    field_simp
    ring

/-- C5, the failing trace.  Two pointers go down on the same spot and one of
them reports two moves that leave it there: the first move records the pinch
distance 0, the second divides 0 by 0, and the clamp lets the resulting `NaN`
through, so the scale is `NaN` and `minScale <= scale <= maxScale` is false. -/
theorem C5_scale_nan (hypot : ℚ → ℚ → ℚ) (h0 : hypot 0 0 = 0) :
    (run hypot stillPinch).scale = .nan ∧ ¬ ScaleClamped (run hypot stillPinch) := by
  have h : (run hypot stillPinch).scale = .nan := by
    simp [run, stillPinch, step, onPointerDown, onPointerMove, mapSet, mapHas, zoomAt,
      clampScale, ZoomState.init, h0]
  refine ⟨h, ?_⟩
  unfold ScaleClamped
  rw [h]
  simp

/-- C5, the failing trace with a concrete `hypot`. -/
theorem C5_scale_nan_witness :
    (run axisHypot stillPinch).scale = .nan ∧ ¬ ScaleClamped (run axisHypot stillPinch) :=
  C5_scale_nan axisHypot (by simp [axisHypot])

/-- C7, the failing trace.  After pointer 1 went down at `(0, 0)`, pointer 2
went down at `(100, 100)` and pointer 1 was lifted, pointer 2 is the only
active pointer, its stored position is `(100, 100)` and panning is set; its
move to `(110, 100)` shifts the translation by `(110, 100)`, the distance to
where pointer 1 went down, and not by `(10, 0)`. -/
theorem C7_pan_jump (hypot : ℚ → ℚ → ℚ) :
    (run hypot handOver).pointers = [(2, ⟨100, 100⟩)] ∧
    (run hypot handOver).panning = true ∧
    (run hypot handOver).x = .fin 0 ∧ (run hypot handOver).y = .fin 0 ∧
    (step hypot (run hypot handOver) (.pointermove ⟨0, 0⟩ 2 110 100)).x = .fin 110 ∧
    (step hypot (run hypot handOver) (.pointermove ⟨0, 0⟩ 2 110 100)).y = .fin 100 := by
  simp [run, handOver, step, onPointerDown, onPointerMove, endPointer, mapSet, mapHas,
    mapDelete, ZoomState.init]

/-! ## Day-series table: interpolated days -/

/-- Every entry `1..maxDay` of the table is the value the loop body computes for its day. -/
theorem buildFrodoDailyKm_entries (landmarks : List Landmark) (first last : Landmark)
    (hfirst : landmarks.head? = some first) (hlast : landmarks.getLast? = some last)
    (hmax : 0 ≤ last.dayIndex) :
    ∃ daily, buildFrodoDailyKm landmarks = .ok daily ∧
      ∀ d : Nat, 1 ≤ d → (d : Int) ≤ last.dayIndex →
        daily[d]? = some (some (dailyValue first last landmarks (d : Int))) := by
  obtain ⟨_, hd⟩ := foldl_set_range
    (fun k => dailyValue first last landmarks ((k : Int) + 1)) last.dayIndex.toNat
    (List.replicate (last.dayIndex + 1).toNat none)
  refine ⟨(List.range last.dayIndex.toNat).foldl
      (fun daily k => daily.set (k + 1) (some (dailyValue first last landmarks ((k : Int) + 1))))
      (List.replicate (last.dayIndex + 1).toNat none), ?_, ?_⟩
  · simp only [buildFrodoDailyKm, hfirst, hlast]
    rw [if_neg (by omega)]
  · intro d hd1 hd2
    rw [(hd d).2 hd1 (by omega) (by rw [List.length_replicate]; omega)]
    have hcast : (((d - 1 : Nat) : Int) + 1) = (d : Int) := by omega
    simp only [hcast]

/-- On a day strictly between two consecutive landmarks the inner loop selects that pair. -/
theorem findBracket_between (d : Int) :
    ∀ (lms : List Landmark) (i : Nat) (a b : Landmark), StrictDays lms →
      lms[i]? = some a → lms[i + 1]? = some b → a.dayIndex < d → d < b.dayIndex →
      findBracket d lms = some (a, b) := by
  intro lms
  induction lms with
  | nil => intro i a b _ ha; simp at ha
  | cons p0 tl ih =>
    intro i a b hs ha hb had hdb
    cases tl with
    | nil => simp at hb
    | cons p1 rest =>
      have hstl : StrictDays (p1 :: rest) := (List.pairwise_cons.mp hs).2
      cases i with
      | zero =>
        simp at ha hb
        subst ha hb
        simp [findBracket, le_of_lt had, le_of_lt hdb]
      | succ i =>
        have ha' : (p1 :: rest)[i]? = some a := by simpa using ha
        have hb' : (p1 :: rest)[i + 1]? = some b := by simpa using hb
        have hp1a : p1.dayIndex ≤ a.dayIndex := by
          cases i with
          | zero => simp at ha'; rw [ha']
          | succ i =>
            have hmem : a ∈ rest := List.getElem?_mem (by simpa using ha')
            exact le_of_lt ((List.pairwise_cons.mp hstl).1 a hmem)
        rw [findBracket]
        have hno : ¬ d ≤ p1.dayIndex := by omega
        simp [hno, ih i a b hstl ha' hb' had hdb]

/-- C11.  For a landmark sequence sorted by strictly increasing `dayIndex` with
first `dayIndex >= 1` and an integer day `d` strictly between two consecutive
landmarks `a` and `b`, `buildFrodoDailyKm` returns a table with
`table[d] = a.km + ((d - a.dayIndex) / (b.dayIndex - a.dayIndex)) * (b.km - a.km)`. -/
theorem C11_interpolated_day (landmarks : List Landmark) (first last a b : Landmark)
    (i : Nat) (d : Int)
    (hfirst : landmarks.head? = some first) (hlast : landmarks.getLast? = some last)
    (hs : StrictDays landmarks) (h1 : 1 ≤ first.dayIndex)
    (ha : landmarks[i]? = some a) (hb : landmarks[i + 1]? = some b)
    (had : a.dayIndex < d) (hdb : d < b.dayIndex) :
    ∃ daily, buildFrodoDailyKm landmarks = .ok daily ∧
      daily[d.toNat]? = some (some (a.frodoCumulativeKm
        + (((d : ℚ) - (a.dayIndex : ℚ)) / ((b.dayIndex : ℚ) - (a.dayIndex : ℚ)))
          * (b.frodoCumulativeKm - a.frodoCumulativeKm))) := by
  have hamem : a ∈ landmarks := List.getElem?_mem ha
  have hbmem : b ∈ landmarks := List.getElem?_mem hb
  have hab := dayIndex_bounds landmarks first last a hs hfirst hlast hamem
  have hbb := dayIndex_bounds landmarks first last b hs hfirst hlast hbmem
  obtain ⟨daily, hbuild, hall⟩ :=
    buildFrodoDailyKm_entries landmarks first last hfirst hlast (by omega)
  refine ⟨daily, hbuild, ?_⟩
  rw [hall d.toNat (by omega) (by omega)]
  have hcast : ((d.toNat : Nat) : Int) = d := by omega
  rw [hcast]
  have hfb := findBracket_between d landmarks i a b hs ha hb had hdb
  have h1' : ¬ d ≤ a.dayIndex := by omega
  have h2' : ¬ b.dayIndex ≤ d := by omega
  simp [dailyValue, hfb, h1', h2']

/-- C11, the example of the specification: on the series
`[(day 1, 0), (day 10, 100), (day 200, 1000)]` the table holds
`0 + (5-1)/(10-1) * 100 = 400/9` at day 5 and `100` at day 10. -/
theorem C11_interpolated_day_witness :
    ∃ daily, buildFrodoDailyKm specLandmarks = .ok daily ∧
      daily[5]? = some (some (400 / 9)) ∧ daily[10]? = some (some 100) := by
  obtain ⟨daily, hbuild, h5⟩ := C11_interpolated_day specLandmarks
    ⟨1, 0, "Bag End"⟩ ⟨200, 1000, "Mount Doom"⟩ ⟨1, 0, "Bag End"⟩ ⟨10, 100, "Bree"⟩ 0 5
    (by simp [specLandmarks]) (by simp [specLandmarks])
    (by norm_num [specLandmarks, StrictDays]) (by norm_num)
    (by simp [specLandmarks]) (by simp [specLandmarks]) (by norm_num) (by norm_num)
  obtain ⟨daily2, hbuild2, hall⟩ := buildFrodoDailyKm_entries specLandmarks
    ⟨1, 0, "Bag End"⟩ ⟨200, 1000, "Mount Doom"⟩
    (by simp [specLandmarks]) (by simp [specLandmarks]) (by norm_num)
  have heq : daily2 = daily := by
    rw [hbuild] at hbuild2
    exact (Except.ok.inj hbuild2).symm
  subst heq
  refine ⟨daily2, hbuild, ?_, ?_⟩
  · have h5' : daily2[5]? = _ := h5
    rw [h5']
    norm_num
  · rw [hall 10 (by norm_num) (by norm_num)]
    have := dailyValue_at_landmark specLandmarks ⟨1, 0, "Bag End"⟩ ⟨200, 1000, "Mount Doom"⟩
      ⟨10, 100, "Bree"⟩ (by norm_num [specLandmarks, StrictDays]) (by simp [specLandmarks])
      (by simp [specLandmarks])
    simpa using this

/-! ## Day/label lookup -/

/-- The first loop ends on the landmark with the greatest `dayIndex <= day`. -/
theorem scanLandmark_greatest (day : Int) (cur : Landmark) :
    ∀ (lms : List Landmark) (start : Landmark), StrictDays lms → cur ∈ lms →
      cur.dayIndex ≤ day → (∀ l ∈ lms, l.dayIndex ≤ day → l.dayIndex ≤ cur.dayIndex) →
      scanLandmark day start lms = cur := by
  intro lms
  induction lms with
  | nil => intro _ _ hmem; simp at hmem
  | cons p rest ih =>
    intro start hs hmem hcur hgreatest
    have hs0 : ∀ q ∈ rest, p.dayIndex < q.dayIndex := (List.pairwise_cons.mp hs).1
    have hsrest : StrictDays rest := (List.pairwise_cons.mp hs).2
    rcases List.mem_cons.mp hmem with h | h
    · subst h
      rw [scanLandmark, if_pos hcur]
      cases rest with
      | nil => rfl
      | cons q rest2 =>
        have hq : ¬ q.dayIndex ≤ day := by
          intro hle
          have h1 := hgreatest q (by simp) hle
          have h2 := hs0 q (by simp)
          omega
        rw [scanLandmark, if_neg hq]
    · have hp : p.dayIndex ≤ day := by
        have := hs0 cur h
        omega
      rw [scanLandmark, if_pos hp]
      exact ih p hsrest h hcur (fun l hl => hgreatest l (List.mem_cons_of_mem _ hl))

/-- The second loop ends on the landmark with the least `dayIndex > day`. -/
theorem scanNext_least (day : Int) (next : Landmark) :
    ∀ (lms : List Landmark), StrictDays lms → next ∈ lms → day < next.dayIndex →
      (∀ l ∈ lms, day < l.dayIndex → next.dayIndex ≤ l.dayIndex) →
      scanNext day lms = some next := by
  intro lms
  induction lms with
  | nil => intro _ hmem; simp at hmem
  | cons p rest ih =>
    intro hs hmem hnext hleast
    have hs0 : ∀ q ∈ rest, p.dayIndex < q.dayIndex := (List.pairwise_cons.mp hs).1
    have hsrest : StrictDays rest := (List.pairwise_cons.mp hs).2
    by_cases hp : p.dayIndex > day
    · rw [scanNext, if_pos hp]
      rcases List.mem_cons.mp hmem with h | h
      · rw [h]
      · have h1 := hleast p (by simp) hp
        have h2 := hs0 next h
        omega
    · rw [scanNext, if_neg hp]
      rcases List.mem_cons.mp hmem with h | h
      · subst h
        exact absurd hnext hp
      · exact ih hsrest h hnext (fun l hl => hleast l (List.mem_cons_of_mem _ hl))

/-- The second loop leaves `next` at `null` when no landmark lies after `day`. -/
theorem scanNext_none (day : Int) :
    ∀ (lms : List Landmark), (∀ l ∈ lms, l.dayIndex ≤ day) → scanNext day lms = none := by
  intro lms
  induction lms with
  | nil => intro _; rfl
  | cons p rest ih =>
    intro h
    have hp : ¬ p.dayIndex > day := not_lt.mpr (h p (by simp))
    rw [scanNext, if_neg hp]
    exact ih (fun l hl => h l (List.mem_cons_of_mem _ hl))

/-- The template literal, spelled out for one day and for any other number of days. -/
theorem awayText_eq (cur next : Landmark) (n : Int) :
    awayText cur next n =
      if n = 1 then cur.label ++ " → " ++ next.label ++ " (" ++ toString n ++ " day away)"
      else cur.label ++ " → " ++ next.label ++ " (" ++ toString n ++ " days away)" := by
  unfold awayText
  by_cases h : n = 1
  · simp only [h, ne_eq, not_true_eq_false, if_false, if_true, String.append_assoc]
    rfl
  · simp only [h, ne_eq, not_false_eq_true, if_false, if_true, String.append_assoc]
    rfl

/-- C13.  For a non-empty landmark series sorted by strictly increasing
`dayIndex` and a day at or after the first landmark's, `getLandmarkForDay`
returns: the label alone of the landmark whose `dayIndex` equals the day, when
there is one; the final landmark's label alone when the day is past the final
landmark; and otherwise `<cur.label> → <next.label> (<n> day away)` for `n = 1`
and `(<n> days away)` for any other `n`, where `cur` has the greatest
`dayIndex <= day`, `next` the least `dayIndex > day` and
`n = next.dayIndex - day`. -/
theorem C13_landmark_text (landmarks : List Landmark) (first last : Landmark) (day : Int)
    (hfirst : landmarks.head? = some first) (hlast : landmarks.getLast? = some last)
    (hs : StrictDays landmarks) (_hday : first.dayIndex ≤ day) :
    (∀ L ∈ landmarks, L.dayIndex = day →
      getLandmarkForDay (some landmarks) day = .ok L.label) ∧
    (last.dayIndex < day → getLandmarkForDay (some landmarks) day = .ok last.label) ∧
    (∀ cur next : Landmark, (∀ L ∈ landmarks, L.dayIndex ≠ day) →
      cur ∈ landmarks → cur.dayIndex ≤ day →
      (∀ l ∈ landmarks, l.dayIndex ≤ day → l.dayIndex ≤ cur.dayIndex) →
      next ∈ landmarks → day < next.dayIndex →
      (∀ l ∈ landmarks, day < l.dayIndex → next.dayIndex ≤ l.dayIndex) →
      getLandmarkForDay (some landmarks) day =
        .ok (if next.dayIndex - day = 1
          then cur.label ++ " → " ++ next.label ++ " (" ++ toString (next.dayIndex - day)
            ++ " day away)"
          else cur.label ++ " → " ++ next.label ++ " (" ++ toString (next.dayIndex - day)
            ++ " days away)")) := by
  cases landmarks with
  | nil => simp at hfirst
  | cons p rest =>
    refine ⟨?_, ?_, ?_⟩
    · intro L hL hLday
      have hscan : scanLandmark day p (p :: rest) = L :=
        scanLandmark_greatest day L (p :: rest) p hs hL (le_of_eq hLday)
          (fun l _ hl => by omega)
      simp only [getLandmarkForDay, hscan, hLday, if_true]
    · intro hpast
      have hall : ∀ l ∈ p :: rest, l.dayIndex ≤ last.dayIndex := fun l hl =>
        (dayIndex_bounds (p :: rest) first last l hs hfirst hlast hl).2
      have hscan : scanLandmark day p (p :: rest) = last :=
        scanLandmark_greatest day last (p :: rest) p hs
          (List.mem_of_getLast?_eq_some hlast) (le_of_lt hpast) (fun l hl _ => hall l hl)
      have hnext : scanNext day (p :: rest) = none :=
        scanNext_none day (p :: rest) (fun l hl => by have := hall l hl; omega)
      simp only [getLandmarkForDay, hscan, hnext, if_neg (ne_of_lt hpast)]
    · intro cur next hnone hcur hcurle hgreatest hnext hnextgt hleast
      have hscan : scanLandmark day p (p :: rest) = cur :=
        scanLandmark_greatest day cur (p :: rest) p hs hcur hcurle hgreatest
      have hnx : scanNext day (p :: rest) = some next :=
        scanNext_least day next (p :: rest) hs hnext hnextgt hleast
      simp only [getLandmarkForDay, hscan, hnx, if_neg (hnone cur hcur)]
      rw [awayText_eq]

/-- C13 on the example series: day 10 is a landmark, day 300 is past the last
one, day 9 is one day and day 5 five days before the landmark of day 10. -/
theorem C13_landmark_text_witness :
    getLandmarkForDay (some specLandmarks) 10 = .ok "Bree" ∧
    getLandmarkForDay (some specLandmarks) 300 = .ok "Mount Doom" ∧
    getLandmarkForDay (some specLandmarks) 9 = .ok "Bag End → Bree (1 day away)" ∧
    getLandmarkForDay (some specLandmarks) 5 = .ok "Bag End → Bree (5 days away)" := by
  have hs : StrictDays specLandmarks := by norm_num [specLandmarks, StrictDays]
  have hfirst : specLandmarks.head? = some ⟨1, 0, "Bag End"⟩ := by simp [specLandmarks]
  have hlast : specLandmarks.getLast? = some ⟨200, 1000, "Mount Doom"⟩ := by
    simp [specLandmarks]
  refine ⟨?_, ?_, ?_, ?_⟩
  · exact (C13_landmark_text specLandmarks _ _ 10 hfirst hlast hs (by norm_num)).1
      ⟨10, 100, "Bree"⟩ (by simp [specLandmarks]) rfl
  · exact (C13_landmark_text specLandmarks _ _ 300 hfirst hlast hs (by norm_num)).2.1
      (by norm_num)
  · have h := (C13_landmark_text specLandmarks _ _ 9 hfirst hlast hs (by norm_num)).2.2
      ⟨1, 0, "Bag End"⟩ ⟨10, 100, "Bree"⟩
      (by intro L hL; simp [specLandmarks] at hL; rcases hL with h | h | h <;> rw [h] <;> norm_num)
      (by simp [specLandmarks]) (by norm_num)
      (by intro l hl hle; simp [specLandmarks] at hl
          rcases hl with h | h | h <;> rw [h] at hle ⊢ <;> norm_num at hle ⊢)
      (by simp [specLandmarks]) (by norm_num)
      (by intro l hl hlt; simp [specLandmarks] at hl
          rcases hl with h | h | h <;> rw [h] at hlt ⊢ <;> norm_num at hlt ⊢)
    rw [h]
    rfl
  · have h := (C13_landmark_text specLandmarks _ _ 5 hfirst hlast hs (by norm_num)).2.2
      ⟨1, 0, "Bag End"⟩ ⟨10, 100, "Bree"⟩
      (by intro L hL; simp [specLandmarks] at hL; rcases hL with h | h | h <;> rw [h] <;> norm_num)
      (by simp [specLandmarks]) (by norm_num)
      (by intro l hl hle; simp [specLandmarks] at hl
          rcases hl with h | h | h <;> rw [h] at hle ⊢ <;> norm_num at hle ⊢)
      (by simp [specLandmarks]) (by norm_num)
      (by intro l hl hlt; simp [specLandmarks] at hl
          rcases hl with h | h | h <;> rw [h] at hlt ⊢ <;> norm_num at hlt ⊢)
    rw [h]
    rfl

/-! ## Gesture transform engine: the pointer map -/

theorem mapHas_cons (k' : Int) (v' : PointerPos) (rest : List (Int × PointerPos)) (j : Int) :
    mapHas ((k', v') :: rest) j = (k' == j || mapHas rest j) := by
  simp [mapHas]

theorem mapHas_mapSet (m : List (Int × PointerPos)) (k : Int) (v : PointerPos) (j : Int) :
    mapHas (mapSet m k v) j = true ↔ k = j ∨ mapHas m j = true := by
  induction m with
  | nil => simp [mapSet, mapHas]
  | cons e rest ih =>
    obtain ⟨k', v'⟩ := e
    by_cases h : k' = k
    · subst h
      simp [mapSet, mapHas_cons]
    · simp only [mapSet, if_neg h, mapHas_cons, Bool.or_eq_true, beq_iff_eq, ih]
      tauto

theorem mapHas_mapDelete (m : List (Int × PointerPos)) (k j : Int) :
    mapHas (mapDelete m k) j = true ↔ mapHas m j = true ∧ j ≠ k := by
  simp only [mapHas, mapDelete, List.any_eq_true, List.mem_filter, beq_iff_eq, bne_iff_ne]
  constructor
  · rintro ⟨e, ⟨hmem, hne⟩, hj⟩
    exact ⟨⟨e, hmem, hj⟩, by rw [← hj]; exact hne⟩
  · rintro ⟨⟨e, hmem, hj⟩, hne⟩
    exact ⟨e, ⟨hmem, by rw [hj]; exact hne⟩, hj⟩

theorem mapGet_mapDelete (m : List (Int × PointerPos)) (k j : Int) (h : j ≠ k) :
    mapGet (mapDelete m k) j = mapGet m j := by
  unfold mapGet mapDelete
  rw [List.find?_filter]
  congr 2
  funext e
  by_cases hj : e.1 = j
  · simp [hj, h]
  · simp [hj]

theorem mapDelete_of_not_has (m : List (Int × PointerPos)) (k : Int)
    (h : mapHas m k = false) : mapDelete m k = m := by
  unfold mapDelete
  rw [List.filter_eq_self]
  intro e he
  simp only [bne_iff_ne, ne_eq]
  intro hek
  have : mapHas m k = true := by
    simp only [mapHas, List.any_eq_true, beq_iff_eq]
    exact ⟨e, he, hek⟩
  rw [h] at this
  exact absurd this (by simp)

theorem length_mapSet (m : List (Int × PointerPos)) (k : Int) (v : PointerPos) :
    m.length ≤ (mapSet m k v).length ∧ 0 < (mapSet m k v).length := by
  induction m with
  | nil => simp [mapSet]
  | cons e rest ih =>
    obtain ⟨k', v'⟩ := e
    by_cases h : k' = k
    · simp [mapSet, h]
    · simp only [mapSet, if_neg h, List.length_cons]
      omega

/-- The `pointerdown` listener stores the pointer and touches neither the pinch distance
nor the transform. -/
theorem onPointerDown_fields (st : ZoomState) (pointerId : Int) (clientX clientY : ℚ) :
    (onPointerDown st pointerId clientX clientY).pointers
        = mapSet st.pointers pointerId ⟨clientX, clientY⟩ ∧
    (onPointerDown st pointerId clientX clientY).lastPinchDist = st.lastPinchDist := by
  simp only [onPointerDown]
  split <;> exact ⟨rfl, rfl⟩

/-- The `pointermove` listener of a registered pointer stores its new position. -/
theorem onPointerMove_pointers (hypot : ℚ → ℚ → ℚ) (st : ZoomState) (rect : Rect)
    (pointerId : Int) (clientX clientY : ℚ) (h : mapHas st.pointers pointerId = true) :
    (onPointerMove hypot st rect pointerId clientX clientY).pointers
      = mapSet st.pointers pointerId ⟨clientX, clientY⟩ := by
  simp only [onPointerMove, h, Bool.not_true, Bool.false_eq_true, if_false]
  split
  · rename_i heq
    split <;> simp [zoomAt, heq]
  · split <;> rfl

theorem run_append (hypot : ℚ → ℚ → ℚ) (events : List Event) (e : Event) :
    run hypot (events ++ [e]) = step hypot (run hypot events) e := by
  simp [run, List.foldl_append]

/-! ## Gesture transform engine: pointer bookkeeping -/

theorem zoomAt_flags (st : ZoomState) (rect : Rect) (clientX clientY : ℚ) (nextScale : JsNum) :
    (zoomAt st rect clientX clientY nextScale).pointers = st.pointers ∧
    (zoomAt st rect clientX clientY nextScale).panning = st.panning ∧
    (zoomAt st rect clientX clientY nextScale).lastPinchDist = st.lastPinchDist :=
  ⟨rfl, rfl, rfl⟩

theorem step_flagsSettled (hypot : ℚ → ℚ → ℚ) (st : ZoomState) (e : Event)
    (h : FlagsSettled st) : FlagsSettled (step hypot st e) := by
  obtain ⟨h1, h2⟩ := h
  cases e with
  | wheel rect clientX clientY deltaY => exact ⟨h1, h2⟩
  | pointerdown pointerId clientX clientY =>
    have hlen := length_mapSet st.pointers pointerId ⟨clientX, clientY⟩
    simp only [step, onPointerDown]
    split
    · rename_i hone
      exact ⟨fun _ => h1 (by omega), fun h0 => by simp only [h0] at hlen; omega⟩
    · exact ⟨fun hlt => h1 (by simp only at hlt; omega),
        fun h0 => by simp only at h0; omega⟩
  | pointermove rect pointerId clientX clientY =>
    have hlen := length_mapSet st.pointers pointerId ⟨clientX, clientY⟩
    simp only [step, onPointerMove]
    split
    · exact ⟨h1, h2⟩
    · split
      · rename_i heq
        have hlen2 : (mapSet st.pointers pointerId ⟨clientX, clientY⟩).length = 2 := by
          have := congrArg List.length heq
          simpa using this
        constructor
        · intro hlt
          have : (mapSet st.pointers pointerId ⟨clientX, clientY⟩).length < 2 := by
            split at hlt <;> exact hlt
          omega
        · intro h0
          have : (mapSet st.pointers pointerId ⟨clientX, clientY⟩).length = 0 := by
            split at h0 <;> exact h0
          omega
      · split
        · exact ⟨fun hlt => h1 (by simp only at hlt; omega),
            fun h0 => by simp only at h0; omega⟩
        · exact ⟨fun hlt => h1 (by simp only at hlt; omega),
            fun h0 => by simp only at h0; omega⟩
  | pointerup pointerId =>
    simp only [step, endPointer]
    split <;> split <;> constructor <;> intro hh <;> simp_all
  | pointercancel pointerId =>
    simp only [step, endPointer]
    split <;> split <;> constructor <;> intro hh <;> simp_all

/-- In every reachable state there is no pinch distance below two pointers and
no panning without a pointer. -/
theorem reachable_flagsSettled (hypot : ℚ → ℚ → ℚ) (events : List Event) :
    FlagsSettled (run hypot events) := by
  unfold run
  have hinit : FlagsSettled ZoomState.init := ⟨fun _ => rfl, fun _ => rfl⟩
  generalize ZoomState.init = st at hinit
  induction events generalizing st with
  | nil => exact hinit
  | cons e es ih => exact ih (step hypot st e) (step_flagsSettled hypot st e hinit)

/-- Releasing a pointer that is not registered changes nothing once the flags are settled. -/
theorem endPointer_orphan (st : ZoomState) (pointerId : Int) (h : FlagsSettled st)
    (hnot : mapHas st.pointers pointerId = false) : endPointer st pointerId = st := by
  obtain ⟨h1, h2⟩ := h
  obtain ⟨scale, minScale, maxScale, x, y, panning, lastX, lastY, pointers, lastPinchDist⟩ := st
  simp only at h1 h2 hnot
  simp only [endPointer, mapDelete_of_not_has pointers pointerId hnot]
  by_cases hlt : pointers.length < 2
  · by_cases h0 : pointers.length = 0
    · simp [hlt, h0, h1 hlt, h2 h0]
    · simp [hlt, h0, h1 hlt]
  · have h0 : ¬ pointers.length = 0 := by omega
    simp [hlt, h0]

/-- C14.  In every reachable state a `pointermove`, `pointerup` or
`pointercancel` whose pointer id is not in the active-pointer map leaves the
whole engine state unchanged. -/
theorem C14_orphan_noop (hypot : ℚ → ℚ → ℚ) (st : ZoomState) (pointerId : Int)
    (hreach : Reachable hypot st) (hnot : mapHas st.pointers pointerId = false) :
    (∀ rect clientX clientY,
      step hypot st (.pointermove rect pointerId clientX clientY) = st) ∧
    step hypot st (.pointerup pointerId) = st ∧
    step hypot st (.pointercancel pointerId) = st := by
  obtain ⟨events, hrun⟩ := hreach
  have hflags : FlagsSettled st := by
    rw [← hrun]; exact reachable_flagsSettled hypot events
  refine ⟨?_, endPointer_orphan st pointerId hflags hnot,
    endPointer_orphan st pointerId hflags hnot⟩
  intro rect clientX clientY
  simp [step, onPointerMove, hnot]

/-- C14 in the state reached by `handOver`, where pointer 2 is down and pointer 1
has been lifted: further events of pointer 1 change nothing. -/
theorem C14_orphan_noop_witness :
    (∀ rect clientX clientY,
      step axisHypot (run axisHypot handOver) (.pointermove rect 1 clientX clientY)
        = run axisHypot handOver) ∧
    step axisHypot (run axisHypot handOver) (.pointerup 1) = run axisHypot handOver ∧
    step axisHypot (run axisHypot handOver) (.pointercancel 1) = run axisHypot handOver :=
  C14_orphan_noop axisHypot (run axisHypot handOver) 1 ⟨handOver, rfl⟩
    (by simp [run, handOver, step, onPointerDown, endPointer, mapSet, mapHas, mapDelete,
      ZoomState.init])

/-- Which ids the map holds after one event. -/
theorem step_mapHas (hypot : ℚ → ℚ → ℚ) (st : ZoomState) (e : Event) (id : Int) :
    mapHas (step hypot st e).pointers id = true ↔
      (∃ clientX clientY, e = .pointerdown id clientX clientY) ∨
      (mapHas st.pointers id = true ∧ e ≠ .pointerup id ∧ e ≠ .pointercancel id) := by
  cases e with
  | wheel rect clientX clientY deltaY =>
    simp [step, onWheel, (zoomAt_flags st rect clientX clientY _).1]
  | pointerdown pointerId clientX clientY =>
    simp only [step, (onPointerDown_fields st pointerId clientX clientY).1, mapHas_mapSet]
    constructor
    · rintro (h | h)
      · exact Or.inl ⟨clientX, clientY, by rw [h]⟩
      · exact Or.inr ⟨h, by simp, by simp⟩
    · rintro (⟨cx, cy, h⟩ | ⟨h, _, _⟩)
      · left
        injection h with h
      · exact Or.inr h
  | pointermove rect pointerId clientX clientY =>
    by_cases hhas : mapHas st.pointers pointerId = true
    · simp only [step, onPointerMove_pointers hypot st rect pointerId clientX clientY hhas,
        mapHas_mapSet]
      constructor
      · rintro (h | h)
        · exact Or.inr ⟨by rw [← h]; exact hhas, by simp, by simp⟩
        · exact Or.inr ⟨h, by simp, by simp⟩
      · rintro (⟨cx, cy, h⟩ | ⟨h, _, _⟩)
        · exact absurd h (by simp)
        · exact Or.inr h
    · have hstep : step hypot st (.pointermove rect pointerId clientX clientY) = st := by
        simp [step, onPointerMove, hhas]
      rw [hstep]
      constructor
      · intro h
        exact Or.inr ⟨h, by simp, by simp⟩
      · rintro (⟨cx, cy, h⟩ | ⟨h, _, _⟩)
        · exact absurd h (by simp)
        · exact h
  | pointerup pointerId =>
    have hp : (step hypot st (.pointerup pointerId)).pointers = mapDelete st.pointers pointerId := by
      simp only [step, endPointer]
      split <;> split <;> rfl
    rw [hp, mapHas_mapDelete]
    constructor
    · rintro ⟨h, hne⟩
      exact Or.inr ⟨h, by simpa using fun h' => hne h'.symm, by simp⟩
    · rintro (⟨cx, cy, h⟩ | ⟨h, hne, _⟩)
      · exact absurd h (by simp)
      · exact ⟨h, fun h' => hne (by rw [h'])⟩
  | pointercancel pointerId =>
    have hp : (step hypot st (.pointercancel pointerId)).pointers
        = mapDelete st.pointers pointerId := by
      simp only [step, endPointer]
      split <;> split <;> rfl
    rw [hp, mapHas_mapDelete]
    constructor
    · rintro ⟨h, hne⟩
      exact Or.inr ⟨h, by simp, by simpa using fun h' => hne h'.symm⟩
    · rintro (⟨cx, cy, h⟩ | ⟨h, _, hne⟩)
      · exact absurd h (by simp)
      · exact ⟨h, fun h' => hne (by rw [h'])⟩

/-- The ids with an unreleased `pointerdown` after one more event. -/
theorem downNotReleased_append (events : List Event) (e : Event) (id : Int) :
    DownNotReleased (events ++ [e]) id ↔
      (∃ clientX clientY, e = .pointerdown id clientX clientY) ∨
      (DownNotReleased events id ∧ e ≠ .pointerup id ∧ e ≠ .pointercancel id) := by
  constructor
  · rintro ⟨before, after, cx, cy, heq, hup, hcancel⟩
    rcases List.eq_nil_or_concat after with h | ⟨front, b, h⟩
    · subst h
      left
      have := List.append_inj' (by simpa using heq :
        events ++ [e] = before ++ [Event.pointerdown id cx cy]) rfl
      exact ⟨cx, cy, by simpa using this.2⟩
    · subst h
      right
      have := List.append_inj' (by simpa using heq :
        events ++ [e] = (before ++ Event.pointerdown id cx cy :: front) ++ [b]) rfl
      have he : e = b := by simpa using this.2
      subst he
      refine ⟨⟨before, front, cx, cy, this.1, ?_, ?_⟩, ?_, ?_⟩
      · exact fun hmem => hup (by simp [hmem])
      · exact fun hmem => hcancel (by simp [hmem])
      · exact fun h' => hup (by simp [h'])
      · exact fun h' => hcancel (by simp [h'])
  · rintro (⟨cx, cy, h⟩ | ⟨⟨before, after, cx, cy, heq, hup, hcancel⟩, hne1, hne2⟩)
    · exact ⟨events, [], cx, cy, by rw [h], by simp, by simp⟩
    · refine ⟨before, after ++ [e], cx, cy, by simp [heq], ?_, ?_⟩
      · simp only [List.mem_append, List.mem_singleton, not_or]
        exact ⟨hup, fun h' => hne1 h'.symm⟩
      · simp only [List.mem_append, List.mem_singleton, not_or]
        exact ⟨hcancel, fun h' => hne2 h'.symm⟩

/-- C15.  After `pointerup` or `pointercancel` for `p`, from any engine state:
the map no longer contains `p` and every other entry is unchanged;
`lastPinchDist` is `null` if fewer than two pointers remain and unchanged
otherwise; `panning` is false if no pointers remain and unchanged otherwise;
scale and translation are unchanged.  And in every reachable state the map
holds exactly the ids that had a `pointerdown` not followed by a `pointerup` or
`pointercancel`. -/
theorem C15_release :
    (∀ (hypot : ℚ → ℚ → ℚ) (st : ZoomState) (p : Int) (e : Event),
      e = .pointerup p ∨ e = .pointercancel p →
      mapHas (step hypot st e).pointers p = false ∧
      (∀ q, q ≠ p → mapGet (step hypot st e).pointers q = mapGet st.pointers q) ∧
      (step hypot st e).lastPinchDist
        = (if (step hypot st e).pointers.length < 2 then none else st.lastPinchDist) ∧
      (step hypot st e).panning
        = (if (step hypot st e).pointers.length = 0 then false else st.panning) ∧
      (step hypot st e).scale = st.scale ∧
      (step hypot st e).x = st.x ∧ (step hypot st e).y = st.y) ∧
    (∀ (hypot : ℚ → ℚ → ℚ) (events : List Event) (id : Int),
      mapHas (run hypot events).pointers id = true ↔ DownNotReleased events id) := by
  constructor
  · intro hypot st p e he
    have hstep : step hypot st e = endPointer st p := by
      rcases he with h | h <;> rw [h] <;> rfl
    rw [hstep]
    have hp : (endPointer st p).pointers = mapDelete st.pointers p := by
      simp only [endPointer]
      split <;> split <;> rfl
    refine ⟨?_, ?_, ?_, ?_, ?_, ?_, ?_⟩
    · rw [hp]
      cases hh : mapHas (mapDelete st.pointers p) p with
      | false => rfl
      | true => exact absurd ((mapHas_mapDelete st.pointers p p).mp hh).2 (by simp)
    · intro q hq
      rw [hp]
      exact mapGet_mapDelete st.pointers p q hq
    · rw [hp]
      simp only [endPointer]
      split <;> split <;> simp_all
    · rw [hp]
      simp only [endPointer]
      split <;> split <;> simp_all
    · simp only [endPointer]
      split <;> split <;> rfl
    · simp only [endPointer]
      split <;> split <;> rfl
    · simp only [endPointer]
      split <;> split <;> rfl
  · intro hypot events id
    induction events using List.reverseRecOn with
    | nil =>
      constructor
      · intro h
        simp [run, ZoomState.init, mapHas] at h
      · rintro ⟨before, after, cx, cy, heq, _, _⟩
        simp at heq
    | append_singleton es e ih =>
      rw [run_append, step_mapHas, downNotReleased_append, ih]

/-! ## Gesture transform engine: pinch and wheel -/

/-- C12.  In a state with exactly two active pointers, scale `oldScale` in
`[1, 5]` and `lastPinchDist = D > 0`, a `pointermove` of one of the two
pointers after which the two stored positions are at distance `2 * D` sets the
scale to `min(maxScale, oldScale * 2)` and `lastPinchDist` to `2 * D`. -/
theorem C12_pinch_doubling (hypot : ℚ → ℚ → ℚ) (st : ZoomState) (rect : Rect)
    (pointerId id0 id1 : Int) (p0 p1 : PointerPos) (clientX clientY s D : ℚ)
    (hmin : st.minScale = .fin 1) (hmax : st.maxScale = .fin 5)
    (hscale : st.scale = .fin s) (h1 : 1 ≤ s) (_h5 : s ≤ 5)
    (_hlen : st.pointers.length = 2) (hhas : mapHas st.pointers pointerId = true)
    (hlast : st.lastPinchDist = some D) (hD : 0 < D)
    (hpost : (step hypot st (.pointermove rect pointerId clientX clientY)).pointers
      = [(id0, p0), (id1, p1)])
    (hdist : hypot (p0.x - p1.x) (p0.y - p1.y) = 2 * D) :
    (step hypot st (.pointermove rect pointerId clientX clientY)).scale
      = .fin (min 5 (s * 2)) ∧
    (step hypot st (.pointermove rect pointerId clientX clientY)).lastPinchDist
      = some (2 * D) := by
  have hset : mapSet st.pointers pointerId ⟨clientX, clientY⟩ = [(id0, p0), (id1, p1)] := by
    rw [← hpost]
    exact (onPointerMove_pointers hypot st rect pointerId clientX clientY hhas).symm
  have hD0 : D ≠ 0 := ne_of_gt hD
  have hratio : s * (2 * D / D) = s * 2 := by
    rw [mul_div_assoc, div_self hD0, mul_one]
  have hclamp : max (1 : ℚ) (min 5 (s * 2)) = min 5 (s * 2) :=
    max_eq_right (le_min (by norm_num) (by linarith))
  simp only [step, onPointerMove, hhas, Bool.not_true, Bool.false_eq_true, if_false, hset,
    hlast, hdist, hscale, zoomAt, clampScale, hmin, hmax, JsNum.fin_div_fin _ _ hD0,
    JsNum.fin_mul_fin, hratio]
  exact ⟨by show JsNum.fin (max 1 (min 5 (s * 2))) = _; rw [hclamp], trivial⟩

/-- C12 with pointers at `(0, 0)` and `(10, 0)`, a recorded distance of 10, and
pointer 2 moving to `(20, 0)`: the scale goes from 1 to 2. -/
theorem C12_pinch_doubling_witness :
    (step axisHypot
        { ZoomState.init with pointers := [(1, ⟨0, 0⟩), (2, ⟨10, 0⟩)], lastPinchDist := some 10 }
        (.pointermove ⟨0, 0⟩ 2 20 0)).scale = .fin (min 5 (1 * 2)) ∧
    (step axisHypot
        { ZoomState.init with pointers := [(1, ⟨0, 0⟩), (2, ⟨10, 0⟩)], lastPinchDist := some 10 }
        (.pointermove ⟨0, 0⟩ 2 20 0)).lastPinchDist = some (2 * 10) :=
  C12_pinch_doubling axisHypot
    { ZoomState.init with pointers := [(1, ⟨0, 0⟩), (2, ⟨10, 0⟩)], lastPinchDist := some 10 }
    ⟨0, 0⟩ 2 1 2 ⟨0, 0⟩ ⟨20, 0⟩ 20 0 1 10 rfl rfl rfl (le_refl _) (by norm_num) rfl
    (by simp [ZoomState.init, mapHas]) rfl (by norm_num)
    (by simp [step, onPointerMove, ZoomState.init, mapHas, mapSet, zoomAt])
    (by norm_num [axisHypot])

/-- C16.  In a state with scale in `[1, 5]`, a wheel event sets the scale to
the clamp of `scale * 1.1` when `deltaY` is negative and of `scale / 1.1`
otherwise, the translation to the one `zoomAt` produces at the cursor with that
target scale, and leaves the pointer map, the panning flag and `lastPinchDist`
unchanged. -/
theorem C16_wheel (hypot : ℚ → ℚ → ℚ) (st : ZoomState) (rect : Rect)
    (clientX clientY deltaY s : ℚ)
    (hmin : st.minScale = .fin 1) (hmax : st.maxScale = .fin 5)
    (hscale : st.scale = .fin s) (_h1 : 1 ≤ s) (_h5 : s ≤ 5) :
    (step hypot st (.wheel rect clientX clientY deltaY)).scale
      = .fin (max 1 (min 5 (if deltaY < 0 then s * (11 / 10) else s / (11 / 10)))) ∧
    (step hypot st (.wheel rect clientX clientY deltaY)).x
      = (zoomAt st rect clientX clientY
          (.fin (if deltaY < 0 then s * (11 / 10) else s / (11 / 10)))).x ∧
    (step hypot st (.wheel rect clientX clientY deltaY)).y
      = (zoomAt st rect clientX clientY
          (.fin (if deltaY < 0 then s * (11 / 10) else s / (11 / 10)))).y ∧
    (step hypot st (.wheel rect clientX clientY deltaY)).pointers = st.pointers ∧
    (step hypot st (.wheel rect clientX clientY deltaY)).panning = st.panning ∧
    (step hypot st (.wheel rect clientX clientY deltaY)).lastPinchDist = st.lastPinchDist := by
  have htarget : st.scale * JsNum.fin (if -deltaY > 0 then 11 / 10 else 1 / (11 / 10))
      = JsNum.fin (if deltaY < 0 then s * (11 / 10) else s / (11 / 10)) := by
    rw [hscale, JsNum.fin_mul_fin]
    by_cases hd : deltaY < 0
    · have : -deltaY > 0 := by linarith
      simp [hd, this]
    · have : ¬ -deltaY > 0 := by linarith
      simp only [hd, this, if_false]
      congr 1
      ring
  have hstep : step hypot st (.wheel rect clientX clientY deltaY)
      = zoomAt st rect clientX clientY
          (.fin (if deltaY < 0 then s * (11 / 10) else s / (11 / 10))) := by
    simp only [step, onWheel, htarget]
  rw [hstep]
  refine ⟨?_, rfl, rfl, rfl, rfl, rfl⟩
  simp only [zoomAt, clampScale, hmin, hmax]
  rfl

/-- C16 from the initial state: one notch in (scale 11/10) and one notch out (scale 1). -/
theorem C16_wheel_witness :
    (step axisHypot ZoomState.init (.wheel ⟨10, 20⟩ 50 60 (-1))).scale = .fin (11 / 10) ∧
    (step axisHypot ZoomState.init (.wheel ⟨10, 20⟩ 50 60 1)).scale = .fin 1 := by
  have hin := (C16_wheel axisHypot ZoomState.init ⟨10, 20⟩ 50 60 (-1) 1 rfl rfl rfl
    (le_refl _) (by norm_num)).1
  have hout := (C16_wheel axisHypot ZoomState.init ⟨10, 20⟩ 50 60 1 1 rfl rfl rfl
    (le_refl _) (by norm_num)).1
  refine ⟨?_, ?_⟩
  · rw [hin]; norm_num
  · rw [hout]; norm_num

/-- C17, the failing trace.  Pointers 1 and 2 pinch at distance 10, pointer 3
goes down at `(100, 0)` and pointer 1 is lifted: exactly two pointers are
active, at `(10, 0)` and `(100, 0)`, 90 apart, and `lastPinchDist` is still the
10 measured between pointers 1 and 2; the next move of pointer 3, which stays
where it is, multiplies the scale by 9 and hits the upper bound. -/
theorem C17_stale_baseline (hypot : ℚ → ℚ → ℚ) (h10 : hypot (-10) 0 = 10)
    (h90 : hypot (-90) 0 = 90) :
    NoWheel thirdFinger ∧
    (run hypot thirdFinger).pointers = [(2, ⟨10, 0⟩), (3, ⟨100, 0⟩)] ∧
    (run hypot thirdFinger).lastPinchDist = some 10 ∧
    hypot (10 - 100) (0 - 0) = 90 ∧
    (run hypot thirdFinger).scale = .fin 1 ∧
    (step hypot (run hypot thirdFinger) (.pointermove ⟨0, 0⟩ 3 100 0)).scale = .fin 5 := by
  have hrun : run hypot thirdFinger =
      { ZoomState.init with pointers := [(2, ⟨10, 0⟩), (3, ⟨100, 0⟩)],
                            lastPinchDist := some 10 } := by
    simp [run, thirdFinger, step, onPointerDown, onPointerMove, endPointer, mapSet, mapHas,
      mapDelete, ZoomState.init, h10]
  refine ⟨?_, ?_, ?_, ?_, ?_, ?_⟩
  · intro e he
    simp only [thirdFinger, List.mem_cons, List.mem_singleton, List.not_mem_nil, or_false] at he
    rcases he with h | h | h | h | h <;> rw [h] <;> simp
  · rw [hrun]
  · rw [hrun]
  · norm_num [h90]
  · rw [hrun]; rfl
  · rw [hrun]
    have h9 : hypot (10 - 100) 0 = 90 := by norm_num [h90]
    have hdiv : (JsNum.fin 90 / JsNum.fin 10 : JsNum) = JsNum.fin 9 := by
      rw [JsNum.fin_div_fin _ _ (by norm_num)]; norm_num
    simp [step, onPointerMove, mapSet, mapHas, zoomAt, clampScale, ZoomState.init, h9, hdiv]
    show JsNum.max (JsNum.fin 1) (JsNum.min (JsNum.fin 5) (JsNum.fin 9)) = JsNum.fin 5
    show JsNum.fin (max 1 (min 5 9)) = JsNum.fin 5
    norm_num

/-- C17, the failing trace with a concrete `hypot`. -/
theorem C17_stale_baseline_witness :
    NoWheel thirdFinger ∧
    (run axisHypot thirdFinger).pointers = [(2, ⟨10, 0⟩), (3, ⟨100, 0⟩)] ∧
    (run axisHypot thirdFinger).lastPinchDist = some 10 ∧
    axisHypot (10 - 100) (0 - 0) = 90 ∧
    (run axisHypot thirdFinger).scale = .fin 1 ∧
    (step axisHypot (run axisHypot thirdFinger) (.pointermove ⟨0, 0⟩ 3 100 0)).scale = .fin 5 :=
  C17_stale_baseline axisHypot (by norm_num [axisHypot]) (by norm_num [axisHypot])

/-- In exact arithmetic, with scale in `[1, 5]` and a finite translation,
`zoomAt` with a desired scale whose clamp is the current scale returns the state
it was given, and so do a wheel zoom-out at scale 1 and a wheel zoom-in at scale 5. -/
theorem zoomAt_exact_unchanged (st : ZoomState) (rect : Rect) (clientX clientY s x y : ℚ)
    (hmin : st.minScale = .fin 1) (hmax : st.maxScale = .fin 5)
    (hscale : st.scale = .fin s) (h1 : 1 ≤ s) (_h5 : s ≤ 5)
    (hx : st.x = .fin x) (hy : st.y = .fin y) :
    (∀ nextScale : JsNum, clampScale st nextScale = st.scale →
      zoomAt st rect clientX clientY nextScale = st) ∧
    (∀ (hypot : ℚ → ℚ → ℚ) (deltaY : ℚ), s = 1 → 0 ≤ deltaY →
      step hypot st (.wheel rect clientX clientY deltaY) = st) ∧
    (∀ (hypot : ℚ → ℚ → ℚ) (deltaY : ℚ), s = 5 → deltaY < 0 →
      step hypot st (.wheel rect clientX clientY deltaY) = st) := by
  have hs0 : s ≠ 0 := by linarith
  have hgen : ∀ nextScale : JsNum, clampScale st nextScale = st.scale →
      zoomAt st rect clientX clientY nextScale = st := by
    intro nextScale hclamp
    obtain ⟨scale, minScale, maxScale, x', y', panning, lastX, lastY, pointers, lastPinchDist⟩ := st
    simp only at hmin hmax hscale hx hy hclamp
    subst hscale hx hy
    simp only [zoomAt, hclamp, JsNum.fin_sub_fin, JsNum.fin_mul_fin, JsNum.fin_div_fin _ _ hs0]
    congr 2
    · field_simp
    · field_simp
  refine ⟨hgen, ?_, ?_⟩
  · intro hypot deltaY hs hd
    apply hgen
    have hneg : ¬ -deltaY > 0 := by linarith
    simp only [clampScale, hmin, hmax, hscale, hs, hneg, if_false, JsNum.fin_mul_fin]
    show JsNum.fin (max 1 (min 5 (1 * (1 / (11 / 10))))) = JsNum.fin 1
    norm_num
  · intro hypot deltaY hs hd
    apply hgen
    have hpos : -deltaY > 0 := by linarith
    simp only [clampScale, hmin, hmax, hscale, hs, hpos, if_true, JsNum.fin_mul_fin]
    show JsNum.fin (max 1 (min 5 (5 * (11 / 10)))) = JsNum.fin 5
    norm_num

/-! ## Double-precision arithmetic -/

theorem roundDouble_zero : roundDouble 0 = 0 := by
  simp [roundDouble]

/-- The binade of a positive number. -/
theorem log_two_eq (q : ℚ) (e : Int) (hq : 0 < q) (hlo : (2 : ℚ) ^ e ≤ q)
    (hhi : q < (2 : ℚ) ^ (e + 1)) : Int.log 2 q = e := by
  have h1 : e ≤ Int.log 2 q :=
    (Int.zpow_le_iff_le_log (b := 2) (by norm_num) hq (x := e)).mp (by exact_mod_cast hlo)
  have h2 : Int.log 2 q < e + 1 :=
    (Int.lt_zpow_iff_log_lt (b := 2) (by norm_num) hq (x := e + 1)).mp (by exact_mod_cast hhi)
  omega

/-- The rounding of a positive number, from its binade and the nearest significand. -/
theorem roundDouble_of_pos (q : ℚ) (e k : Int) (hq : 0 < q) (hlo : (2 : ℚ) ^ e ≤ q)
    (hhi : q < (2 : ℚ) ^ (e + 1)) (h1 : (k : ℚ) - 1 / 2 < q / 2 ^ (e - 52))
    (h2 : q / 2 ^ (e - 52) < (k : ℚ) + 1 / 2) : roundDouble q = (k : ℚ) * 2 ^ (e - 52) := by
  have hq0 : q ≠ 0 := ne_of_gt hq
  have hlog : Int.log 2 q = e := log_two_eq q e hq hlo hhi
  have hneg : ¬ q < 0 := not_lt.mpr (le_of_lt hq)
  unfold roundDouble
  simp only [hq0, if_false, abs_of_pos hq, hlog, hneg, one_mul]
  generalize q / 2 ^ (e - 52) = m at h1 h2 ⊢
  by_cases hmk : (k : ℚ) ≤ m
  · have hf : ⌊m⌋ = k := by
      rw [Int.floor_eq_iff]
      exact ⟨hmk, by linarith⟩
    have hr : m - (k : ℚ) < 1 / 2 := by linarith
    rw [hf, if_pos hr]
  · have hf : ⌊m⌋ = k - 1 := by
      rw [Int.floor_eq_iff]
      push_cast
      exact ⟨by linarith, by linarith⟩
    have hr1 : ¬ m - ((k - 1 : Int) : ℚ) < 1 / 2 := by push_cast; linarith
    have hr2 : 1 / 2 < m - ((k - 1 : Int) : ℚ) := by push_cast; linarith
    rw [hf, if_neg hr1, if_pos hr2]
    push_cast
    ring

/-- The rounding of a positive number half-way between two significands, the lower one even. -/
theorem roundDouble_of_pos_tie (q : ℚ) (e k : Int) (hq : 0 < q) (hlo : (2 : ℚ) ^ e ≤ q)
    (hhi : q < (2 : ℚ) ^ (e + 1)) (hm : q / 2 ^ (e - 52) = (k : ℚ) + 1 / 2)
    (heven : k % 2 = 0) : roundDouble q = (k : ℚ) * 2 ^ (e - 52) := by
  have hq0 : q ≠ 0 := ne_of_gt hq
  have hlog : Int.log 2 q = e := log_two_eq q e hq hlo hhi
  have hneg : ¬ q < 0 := not_lt.mpr (le_of_lt hq)
  unfold roundDouble
  simp only [hq0, if_false, abs_of_pos hq, hlog, hneg, one_mul, hm]
  have hf : ⌊(k : ℚ) + 1 / 2⌋ = k := by
    rw [Int.floor_eq_iff]
    exact ⟨by linarith, by linarith⟩
  have hr1 : ¬ (k : ℚ) + 1 / 2 - (k : ℚ) < 1 / 2 := by linarith
  have hr2 : ¬ 1 / 2 < (k : ℚ) + 1 / 2 - (k : ℚ) := by linarith
  rw [hf, if_neg hr1, if_neg hr2, if_pos heven]

theorem roundDouble_pos (q : ℚ) (hq : 0 < q) : 0 < roundDouble q := by
  have hq0 : q ≠ 0 := ne_of_gt hq
  have hneg : ¬ q < 0 := not_lt.mpr (le_of_lt hq)
  have hulp : (0 : ℚ) < 2 ^ (Int.log 2 q - 52) := by positivity
  have hle : (2 : ℚ) ^ (Int.log 2 q) ≤ q := by
    have := Int.zpow_log_le_self (b := 2) (by norm_num) hq
    exact_mod_cast this
  have hm : (1 : ℚ) ≤ q / 2 ^ (Int.log 2 q - 52) := by
    rw [le_div_iff₀ hulp, one_mul]
    calc (2 : ℚ) ^ (Int.log 2 q - 52) ≤ 2 ^ (Int.log 2 q) :=
          zpow_le_zpow_right₀ (by norm_num) (by omega)
      _ ≤ q := hle
  have hf : (1 : Int) ≤ ⌊q / 2 ^ (Int.log 2 q - 52)⌋ := Int.le_floor.mpr (by exact_mod_cast hm)
  simp only [roundDouble, hq0, if_false, hneg, abs_of_pos hq, one_mul]
  apply mul_pos _ hulp
  have : (0 : ℚ) < (⌊q / 2 ^ (Int.log 2 q - 52)⌋ : ℚ) := by
    exact_mod_cast (by omega : (0 : Int) < _)
  split_ifs <;> push_cast <;> linarith

theorem roundDouble_one : roundDouble 1 = 1 := by
  rw [roundDouble_of_pos 1 0 (2 ^ 52) (by norm_num) (by norm_num) (by norm_num)
    (by norm_num) (by norm_num)]
  norm_num

/-- Double rounding is a rounding in the sense the proofs use. -/
theorem rounding_roundDouble : Rounding roundDouble :=
  ⟨roundDouble_zero, roundDouble_one, roundDouble_pos⟩

/-- Exact arithmetic is the rounding that does nothing. -/
theorem rounding_id : Rounding id :=
  ⟨rfl, rfl, fun _ h => h⟩

/-- The literal `0.2`. -/
theorem roundDouble_fifth : roundDouble (1 / 5) = 3602879701896397 / 18014398509481984 := by
  rw [roundDouble_of_pos (1 / 5) (-3) 7205759403792794 (by norm_num) (by norm_num)
    (by norm_num) (by norm_num) (by norm_num)]
  norm_num

/-- The literal `0.9`. -/
theorem roundDouble_nine_tenths :
    roundDouble (9 / 10) = 8106479329266893 / 9007199254740992 := by
  rw [roundDouble_of_pos (9 / 10) (-1) 8106479329266893 (by norm_num) (by norm_num)
    (by norm_num) (by norm_num) (by norm_num)]
  norm_num

/-- The literal `0.1`. -/
theorem roundDouble_tenth : roundDouble (1 / 10) = 3602879701896397 / 36028797018963968 := by
  rw [roundDouble_of_pos (1 / 10) (-4) 7205759403792794 (by norm_num) (by norm_num)
    (by norm_num) (by norm_num) (by norm_num)]
  norm_num

theorem roundDouble_seven : roundDouble 7 = 7 := by
  rw [roundDouble_of_pos 7 2 7881299347898368 (by norm_num) (by norm_num)
    (by norm_num) (by norm_num) (by norm_num)]
  norm_num

/-- The double `0.9` is representable. -/
theorem roundDouble_nine_tenths_fixed :
    roundDouble (8106479329266893 / 9007199254740992) = 8106479329266893 / 9007199254740992 := by
  rw [roundDouble_of_pos (8106479329266893 / 9007199254740992) (-1) 8106479329266893
    (by norm_num) (by norm_num) (by norm_num) (by norm_num) (by norm_num)]
  norm_num

/-- The difference `0.9 - 0.2` in doubles, a tie that goes to the even significand. -/
theorem roundDouble_diff :
    roundDouble (8106479329266893 / 9007199254740992 - 3602879701896397 / 18014398509481984)
      = 3152519739159347 / 4503599627370496 := by
  rw [roundDouble_of_pos_tie
    (8106479329266893 / 9007199254740992 - 3602879701896397 / 18014398509481984) (-1)
    6305039478318694 (by norm_num) (by norm_num) (by norm_num) (by norm_num) (by norm_num)]
  norm_num

/-- The double `0.9 - 0.2` is representable. -/
theorem roundDouble_diff_fixed :
    roundDouble (3152519739159347 / 4503599627370496) = 3152519739159347 / 4503599627370496 := by
  rw [roundDouble_of_pos (3152519739159347 / 4503599627370496) (-1) 6305039478318694
    (by norm_num) (by norm_num) (by norm_num) (by norm_num) (by norm_num)]
  norm_num

/-- The sum `0.2 + (0.9 - 0.2)` in doubles is `0.8999999999999999`. -/
theorem roundDouble_sum :
    roundDouble (3602879701896397 / 18014398509481984 + 3152519739159347 / 4503599627370496)
      = 2026619832316723 / 2251799813685248 := by
  rw [roundDouble_of_pos_tie
    (3602879701896397 / 18014398509481984 + 3152519739159347 / 4503599627370496) (-1)
    8106479329266892 (by norm_num) (by norm_num) (by norm_num) (by norm_num) (by norm_num)]
  norm_num

/-- The difference `7 - 0.1` in doubles is `6.9`. -/
theorem roundDouble_seven_minus :
    roundDouble (7 - 3602879701896397 / 36028797018963968)
      = 3884354678607053 / 562949953421312 := by
  rw [roundDouble_of_pos (7 - 3602879701896397 / 36028797018963968) 2 7768709357214106
    (by norm_num) (by norm_num) (by norm_num) (by norm_num) (by norm_num)]
  norm_num

/-- The double `6.9` is representable. -/
theorem roundDouble_seven_minus_fixed :
    roundDouble (3884354678607053 / 562949953421312) = 3884354678607053 / 562949953421312 := by
  rw [roundDouble_of_pos (3884354678607053 / 562949953421312) 2 7768709357214106
    (by norm_num) (by norm_num) (by norm_num) (by norm_num) (by norm_num)]
  norm_num

/-- The difference `7 - 6.9` in doubles is `0.09999999999999964`. -/
theorem roundDouble_back :
    roundDouble (7 - 3884354678607053 / 562949953421312)
      = 56294995342131 / 562949953421312 := by
  rw [roundDouble_of_pos (7 - 3884354678607053 / 562949953421312) (-4) 7205759403792768
    (by norm_num) (by norm_num) (by norm_num) (by norm_num) (by norm_num)]
  norm_num

/-! ## The interpolator in rounded arithmetic -/

/-- With the rounding that does nothing the rounded reading is the exact one. -/
theorem rounded_interpolatePosition_id (route : Route) (targetKm : ℚ) :
    Rounded.interpolatePosition id route targetKm = interpolatePosition route targetKm := by
  cases hfs : findSegment (clampKm route targetKm) route.points with
  | none =>
    cases hlast : route.points.getLast? with
    | none => simp [Rounded.interpolatePosition, interpolatePosition, interpolateRun, hfs, hlast,
        Except.map]
    | some l => simp [Rounded.interpolatePosition, interpolatePosition, interpolateRun, hfs,
        hlast, Except.map]
  | some ab =>
    obtain ⟨a, b⟩ := ab
    simp only [Rounded.interpolatePosition, interpolatePosition, interpolateRun, hfs, Except.map,
      Rounded.segmentPoint, Rounded.segmentT, Rounded.lerp, segmentPoint, segmentT, lerp, id]
    by_cases h : b.dKm - a.dKm > 0 <;> simp [h]

theorem rounded_segmentT_at_start (rnd : ℚ → ℚ) (hr : Rounding rnd) (p1 p2 : Checkpoint) :
    Rounded.segmentT rnd p1.dKm p1 p2 = 0 := by
  unfold Rounded.segmentT
  simp only [sub_self, hr.1, zero_div, ite_self]

theorem rounded_segmentT_at_end (rnd : ℚ → ℚ) (hr : Rounding rnd) (p1 p2 : Checkpoint)
    (h : p1.dKm < p2.dKm) : Rounded.segmentT rnd p2.dKm p1 p2 = 1 := by
  have hpos : rnd (p2.dKm - p1.dKm) > 0 := hr.2.2 _ (sub_pos.mpr h)
  unfold Rounded.segmentT
  simp only [hpos, if_true, div_self (ne_of_gt hpos), hr.2.1]

/-- At fraction 0 the segment returns its first checkpoint exactly. -/
theorem rounded_segmentPoint_at_start (rnd : ℚ → ℚ) (hr : Rounding rnd) (p1 p2 : Checkpoint)
    (hrep : p1.Representable rnd) : Rounded.segmentPoint rnd p1.dKm p1 p2 = p1.toPoint := by
  unfold Rounded.segmentPoint
  simp only [rounded_segmentT_at_start rnd hr p1 p2, Rounded.lerp, mul_zero, hr.1, add_zero,
    hrep.1, hrep.2, Checkpoint.toPoint]

/-- At its far end a segment of positive length has fraction exactly 1 and
returns `p1 + (p2 - p1) * 1`, each operation rounded. -/
theorem rounded_segmentPoint_at_end (rnd : ℚ → ℚ) (hr : Rounding rnd) (p1 p2 : Checkpoint)
    (h : p1.dKm < p2.dKm) :
    Rounded.segmentPoint rnd p2.dKm p1 p2
      = { x := rnd (p1.x + rnd (rnd (p2.x - p1.x) * 1)),
          y := rnd (p1.y + rnd (rnd (p2.y - p1.y) * 1)) } := by
  unfold Rounded.segmentPoint
  simp only [rounded_segmentT_at_end rnd hr p1 p2 h, Rounded.lerp]

theorem rounded_interpolatePosition_of_findSegment (rnd : ℚ → ℚ) (route : Route)
    (targetKm : ℚ) (a b : Checkpoint)
    (h : findSegment (clampKm route targetKm) route.points = some (a, b)) :
    Rounded.interpolatePosition rnd route targetKm
      = .ok (Rounded.segmentPoint rnd (clampKm route targetKm) a b) := by
  simp [Rounded.interpolatePosition, h]

/-- At a checkpoint that is the first with its `dKm` and not the first of the
route, the loop selects the segment that ends there. -/
theorem findSegment_ending_at (pts : List Checkpoint) (k : Nat) (q p : Checkpoint)
    (hnd : NonDecreasing pts) (hq : pts[k]? = some q) (hp : pts[k + 1]? = some p)
    (hfirst : ∀ j r, j < k + 1 → pts[j]? = some r → r.dKm ≠ p.dKm) :
    q.dKm < p.dKm ∧ findSegment p.dKm pts = some (q, p) := by
  have hlt : ∀ j r, j < k + 1 → pts[j]? = some r → r.dKm < p.dKm := fun j r hj hr =>
    lt_of_le_of_ne (pairwise_getElem? pts hnd j (k + 1) r p hj hr hp) (hfirst j r hj hr)
  refine ⟨hlt k q (by omega) hq, ?_⟩
  apply findSegment_least p.dKm pts k q p hq hp (le_of_lt (hlt k q (by omega) hq)) (le_refl _)
  intro j q1 q2 hj _ hq2 hcontra
  have := hlt (j + 1) q2 (by omega) hq2
  exact absurd hcontra.2 (not_le.mpr this)

/-- C2, amended.  On a route with at least two checkpoints, non-decreasing
`dKm` and `totalKm` the last `dKm`, at a checkpoint `k` with `0 <= dKm_k` whose
`dKm` is not shared by an earlier checkpoint, `interpolatePosition` at `dKm_k`
returns: for `k = 0` exactly checkpoint 0's coordinates; for `k >= 1` the
interpolation of segment `[k-1, k]` at fraction exactly 1,
`(x_(k-1) + (x_k - x_(k-1)) * 1, y_(k-1) + (y_k - y_(k-1)) * 1)`, whatever the
rounding of each operation; in exact arithmetic this is checkpoint `k`. -/
theorem C2_at_checkpoint (route : Route) (k : Nat) (p : Checkpoint)
    (h2 : 2 ≤ route.points.length) (hnd : NonDecreasing route.points)
    (htot : TotalIsLast route) (hk : route.points[k]? = some p) (h0 : 0 ≤ p.dKm)
    (hfirst : ∀ j q, j < k → route.points[j]? = some q → q.dKm ≠ p.dKm) :
    (∀ rnd : ℚ → ℚ, Rounding rnd → k = 0 → p.Representable rnd →
      Rounded.interpolatePosition rnd route p.dKm = .ok p.toPoint) ∧
    (∀ (rnd : ℚ → ℚ) (q : Checkpoint), Rounding rnd → 0 < k →
      route.points[k - 1]? = some q →
      Rounded.interpolatePosition rnd route p.dKm
        = .ok { x := rnd (q.x + rnd (rnd (p.x - q.x) * 1)),
                y := rnd (q.y + rnd (rnd (p.y - q.y) * 1)) }) ∧
    Rounded.interpolatePosition id route p.dKm = .ok p.toPoint := by
  obtain ⟨l, hl, hlt⟩ : ∃ l, route.points.getLast? = some l ∧ l.dKm = route.totalKm := by
    simpa [TotalIsLast] using htot
  have hle : p.dKm ≤ route.totalKm := by
    rw [← hlt]; exact dKm_le_last route.points hnd k p l hk hl
  have hc : clampKm route p.dKm = p.dKm := clampKm_of_mem route p.dKm h0 hle
  have hzero : ∀ rnd : ℚ → ℚ, Rounding rnd → k = 0 → p.Representable rnd →
      Rounded.interpolatePosition rnd route p.dKm = .ok p.toPoint := by
    intro rnd hr hk0 hrep
    subst hk0
    match hpts : route.points, h2, hnd, hk with
    | [], h2, _, _ => simp at h2
    | [_], h2, _, _ => simp at h2
    | a :: b :: rest, _, hnd, hk =>
      simp at hk
      subst hk
      have hab : a.dKm ≤ b.dKm := (List.pairwise_cons.mp hnd).1 b (by simp)
      have hfs : findSegment (clampKm route a.dKm) route.points = some (a, b) := by
        rw [hc, hpts]
        simp [findSegment, inSegment, hab]
      rw [rounded_interpolatePosition_of_findSegment rnd route a.dKm a b hfs, hc,
        rounded_segmentPoint_at_start rnd hr a b hrep]
  have hpos : ∀ (rnd : ℚ → ℚ) (q : Checkpoint), Rounding rnd → 0 < k →
      route.points[k - 1]? = some q →
      Rounded.interpolatePosition rnd route p.dKm
        = .ok { x := rnd (q.x + rnd (rnd (p.x - q.x) * 1)),
                y := rnd (q.y + rnd (rnd (p.y - q.y) * 1)) } := by
    intro rnd q hr hkpos hq
    obtain ⟨j, rfl⟩ : ∃ j, k = j + 1 := ⟨k - 1, by omega⟩
    have hq' : route.points[j]? = some q := by simpa using hq
    obtain ⟨hqp, hfs⟩ := findSegment_ending_at route.points j q p hnd hq' hk hfirst
    rw [rounded_interpolatePosition_of_findSegment rnd route p.dKm q p (by rw [hc]; exact hfs),
      hc, rounded_segmentPoint_at_end rnd hr q p hqp]
  refine ⟨hzero, hpos, ?_⟩
  by_cases hk0 : k = 0
  · exact hzero id rounding_id hk0 ⟨rfl, rfl⟩
  · have hklen : k - 1 < route.points.length := by
      have := (List.getElem?_eq_some_iff.mp hk).1
      omega
    have hq : route.points[k - 1]? = some (route.points[k - 1]) :=
      List.getElem?_eq_getElem hklen
    rw [hpos id _ rounding_id (by omega) hq]
    simp [Checkpoint.toPoint]

/-- C2, amended, in double arithmetic on `decimalRoute`: at the `dKm` of
checkpoint 1, which lies at `x = 0.9`, the result is
`0.2 + (0.9 - 0.2) * 1 = 0.8999999999999999`. -/
theorem C2_at_checkpoint_witness :
    Rounded.interpolatePosition roundDouble decimalRoute 10
      = .ok ⟨2026619832316723 / 2251799813685248, 0⟩ := by
  have h := (C2_at_checkpoint decimalRoute 1 ⟨roundDouble (9 / 10), 0, 10⟩
    (by simp [decimalRoute]) (by norm_num [decimalRoute, NonDecreasing])
    (by simp [decimalRoute, TotalIsLast]) (by simp [decimalRoute]) (by norm_num)
    (by
      intro j q hj hq
      interval_cases j
      simp [decimalRoute] at hq
      subst hq
      norm_num)).2.1 roundDouble ⟨roundDouble (1 / 5), 0, 0⟩ rounding_roundDouble
    (by norm_num) (by simp [decimalRoute])
  have h' : Rounded.interpolatePosition roundDouble decimalRoute 10 = _ := h
  rw [h']
  simp only [mul_one, roundDouble_fifth, roundDouble_nine_tenths, roundDouble_diff,
    roundDouble_diff_fixed, roundDouble_sum, sub_self, roundDouble_zero, add_zero]

/-- C10, as stated, fails in double arithmetic.  `decimalRoute` has three
checkpoints, strictly increasing `dKm`, first `dKm` 0 and `totalKm` the last
`dKm`; at the interior checkpoint, which lies at `x = 0.9`, segment `[0, 1]`
gives `x = 0.2 + (0.9 - 0.2) * 1 = 0.8999999999999999` and segment `[1, 2]`
gives `x = 0.9`. -/
theorem C10_counterexample :
    decimalRoute.points
      = [⟨roundDouble (1 / 5), 0, 0⟩, ⟨roundDouble (9 / 10), 0, 10⟩, ⟨0, 0, 20⟩] ∧
    3 ≤ decimalRoute.points.length ∧ StrictlyIncreasing decimalRoute.points ∧
    decimalRoute.points.head?.map Checkpoint.dKm = some 0 ∧ TotalIsLast decimalRoute ∧
    Rounded.segmentPoint roundDouble 10 ⟨roundDouble (1 / 5), 0, 0⟩ ⟨roundDouble (9 / 10), 0, 10⟩
      = ⟨2026619832316723 / 2251799813685248, 0⟩ ∧
    Rounded.segmentPoint roundDouble 10 ⟨roundDouble (9 / 10), 0, 10⟩ ⟨0, 0, 20⟩
      = ⟨8106479329266893 / 9007199254740992, 0⟩ ∧
    Rounded.segmentPoint roundDouble 10 ⟨roundDouble (1 / 5), 0, 0⟩ ⟨roundDouble (9 / 10), 0, 10⟩
      ≠ Rounded.segmentPoint roundDouble 10 ⟨roundDouble (9 / 10), 0, 10⟩ ⟨0, 0, 20⟩ := by
  have hlow : Rounded.segmentPoint roundDouble 10 ⟨roundDouble (1 / 5), 0, 0⟩
      ⟨roundDouble (9 / 10), 0, 10⟩ = ⟨2026619832316723 / 2251799813685248, 0⟩ := by
    have h := rounded_segmentPoint_at_end roundDouble rounding_roundDouble
      ⟨roundDouble (1 / 5), 0, 0⟩ ⟨roundDouble (9 / 10), 0, 10⟩ (by norm_num)
    have h' : Rounded.segmentPoint roundDouble 10 ⟨roundDouble (1 / 5), 0, 0⟩
      ⟨roundDouble (9 / 10), 0, 10⟩ = _ := h
    rw [h']
    simp only [mul_one, roundDouble_fifth, roundDouble_nine_tenths, roundDouble_diff,
      roundDouble_diff_fixed, roundDouble_sum, sub_self, roundDouble_zero, add_zero]
  have hhigh : Rounded.segmentPoint roundDouble 10 ⟨roundDouble (9 / 10), 0, 10⟩ ⟨0, 0, 20⟩
      = ⟨8106479329266893 / 9007199254740992, 0⟩ := by
    have h := rounded_segmentPoint_at_start roundDouble rounding_roundDouble
      ⟨roundDouble (9 / 10), 0, 10⟩ ⟨0, 0, 20⟩
      ⟨by simp only [roundDouble_nine_tenths, roundDouble_nine_tenths_fixed], roundDouble_zero⟩
    have h' : Rounded.segmentPoint roundDouble 10 ⟨roundDouble (9 / 10), 0, 10⟩ ⟨0, 0, 20⟩ = _ := h
    rw [h']
    simp only [Checkpoint.toPoint, roundDouble_nine_tenths]
  refine ⟨rfl, by simp [decimalRoute], ?_, by simp [decimalRoute], by simp [decimalRoute, TotalIsLast],
    hlow, hhigh, ?_⟩
  · simp only [decimalRoute, StrictlyIncreasing]
    norm_num
  · rw [hlow, hhigh]
    intro h
    have hx := congrArg Point.x h
    norm_num at hx

/-- C10, amended.  On a route with at least three checkpoints, strictly
increasing `dKm`, first `dKm` 0 and `totalKm` the last `dKm`, at an interior
checkpoint `i` with representable coordinates and whatever the rounding of each
operation: segment `[i-1, i]` evaluated at `dKm_i` has fraction exactly 1 and
gives `(x_(i-1) + (x_i - x_(i-1)) * 1, y_(i-1) + (y_i - y_(i-1)) * 1)`;
segment `[i, i+1]` evaluated at `dKm_i` has fraction exactly 0 and gives
exactly checkpoint `i`; `interpolatePosition(route, dKm_i)` is the value of
segment `[i-1, i]`; and in exact arithmetic the two segments agree. -/
theorem C10_no_jump (rnd : ℚ → ℚ) (route : Route) (i : Nat) (p0 pPrev p pNext : Checkpoint)
    (hr : Rounding rnd) (hrep : p.Representable rnd)
    (_hlen : 3 ≤ route.points.length) (hinc : StrictlyIncreasing route.points)
    (hhead : route.points.head? = some p0) (h0 : p0.dKm = 0) (htot : TotalIsLast route)
    (hprev : route.points[i]? = some pPrev) (hcur : route.points[i + 1]? = some p)
    (_hnext : route.points[i + 2]? = some pNext) :
    Rounded.segmentPoint rnd p.dKm pPrev p
      = { x := rnd (pPrev.x + rnd (rnd (p.x - pPrev.x) * 1)),
          y := rnd (pPrev.y + rnd (rnd (p.y - pPrev.y) * 1)) } ∧
    Rounded.segmentPoint rnd p.dKm p pNext = p.toPoint ∧
    Rounded.interpolatePosition rnd route p.dKm
      = .ok (Rounded.segmentPoint rnd p.dKm pPrev p) ∧
    Rounded.segmentPoint id p.dKm pPrev p = Rounded.segmentPoint id p.dKm p pNext := by
  have hnd : NonDecreasing route.points := List.Pairwise.imp (fun h => le_of_lt h) hinc
  have hlt : pPrev.dKm < p.dKm :=
    pairwise_getElem? route.points hinc i (i + 1) pPrev p (by omega) hprev hcur
  have hhead' : route.points[0]? = some p0 := by rw [← List.head?_eq_getElem?]; exact hhead
  have hp0 : 0 ≤ p.dKm := by
    have : p0.dKm < p.dKm :=
      pairwise_getElem? route.points hinc 0 (i + 1) p0 p (by omega) hhead' hcur
    rw [h0] at this
    exact le_of_lt this
  obtain ⟨l, hl, hll⟩ : ∃ l, route.points.getLast? = some l ∧ l.dKm = route.totalKm := by
    simpa [TotalIsLast] using htot
  have hle : p.dKm ≤ route.totalKm := by
    rw [← hll]; exact dKm_le_last route.points hnd (i + 1) p l hcur hl
  have hc : clampKm route p.dKm = p.dKm := clampKm_of_mem route p.dKm hp0 hle
  have hfirst : ∀ j q, j < i + 1 → route.points[j]? = some q → q.dKm ≠ p.dKm := fun j q hj hq =>
    ne_of_lt (pairwise_getElem? route.points hinc j (i + 1) q p hj hq hcur)
  obtain ⟨_, hfs⟩ := findSegment_ending_at route.points i pPrev p hnd hprev hcur hfirst
  refine ⟨rounded_segmentPoint_at_end rnd hr pPrev p hlt,
    rounded_segmentPoint_at_start rnd hr p pNext hrep, ?_, ?_⟩
  · rw [rounded_interpolatePosition_of_findSegment rnd route p.dKm pPrev p
      (by rw [hc]; exact hfs), hc]
  · rw [rounded_segmentPoint_at_end id rounding_id pPrev p hlt,
      rounded_segmentPoint_at_start id rounding_id p pNext ⟨rfl, rfl⟩]
    simp [Checkpoint.toPoint]

/-- C10, amended, in double arithmetic at the interior checkpoint of
`decimalRoute`: `interpolatePosition` returns the value of segment `[0, 1]`,
`x = 0.8999999999999999`, and segment `[1, 2]` gives the checkpoint, `x = 0.9`. -/
theorem C10_no_jump_witness :
    Rounded.interpolatePosition roundDouble decimalRoute 10
      = .ok (Rounded.segmentPoint roundDouble 10 ⟨roundDouble (1 / 5), 0, 0⟩
          ⟨roundDouble (9 / 10), 0, 10⟩) ∧
    Rounded.segmentPoint roundDouble 10 ⟨roundDouble (9 / 10), 0, 10⟩ ⟨0, 0, 20⟩
      = ⟨roundDouble (9 / 10), 0⟩ := by
  have h := C10_no_jump roundDouble decimalRoute 0 ⟨roundDouble (1 / 5), 0, 0⟩
    ⟨roundDouble (1 / 5), 0, 0⟩ ⟨roundDouble (9 / 10), 0, 10⟩ ⟨0, 0, 20⟩ rounding_roundDouble
    ⟨by simp only [roundDouble_nine_tenths, roundDouble_nine_tenths_fixed], roundDouble_zero⟩
    (by simp [decimalRoute])
    (by simp only [decimalRoute, StrictlyIncreasing]; norm_num)
    (by simp [decimalRoute]) rfl (by simp [decimalRoute, TotalIsLast])
    (by simp [decimalRoute]) (by simp [decimalRoute]) (by simp [decimalRoute])
  exact ⟨h.2.2.1, h.2.1⟩

/-! ## The anchored zoom in rounded arithmetic, and with a `NaN` scale -/

/-- The literal `1.1`. -/
theorem roundDouble_wheel_factor :
    roundDouble (11 / 10) = 2476979795053773 / 2251799813685248 := by
  rw [roundDouble_of_pos (11 / 10) 0 4953959590107546 (by norm_num) (by norm_num)
    (by norm_num) (by norm_num) (by norm_num)]
  norm_num

/-- The quotient `1 / 1.1` in doubles is `0.9090909090909091`. -/
theorem roundDouble_wheel_inverse :
    roundDouble (1 / (2476979795053773 / 2251799813685248))
      = 8188362958855447 / 9007199254740992 := by
  rw [roundDouble_of_pos (1 / (2476979795053773 / 2251799813685248)) (-1) 8188362958855447
    (by norm_num) (by norm_num) (by norm_num) (by norm_num) (by norm_num)]
  norm_num

/-- The double `0.9090909090909091` is representable. -/
theorem roundDouble_wheel_inverse_fixed :
    roundDouble (8188362958855447 / 9007199254740992) = 8188362958855447 / 9007199254740992 := by
  rw [roundDouble_of_pos (8188362958855447 / 9007199254740992) (-1) 8188362958855447
    (by norm_num) (by norm_num) (by norm_num) (by norm_num) (by norm_num)]
  norm_num

/-- The product `5 * 1.1` in doubles is `5.5`. -/
theorem roundDouble_wheel_top :
    roundDouble (5 * (2476979795053773 / 2251799813685248)) = 11 / 2 := by
  rw [roundDouble_of_pos_tie (5 * (2476979795053773 / 2251799813685248)) 2 6192449487634432
    (by norm_num) (by norm_num) (by norm_num) (by norm_num) (by norm_num)]
  norm_num

/-- In double arithmetic a wheel event at a scale bound that pushes against the
bound has the current scale as its clamped target. -/
theorem rounded_onWheel_scale (st : ZoomState) (rect : Rect) (clientX clientY deltaY s : ℚ)
    (hmin : st.minScale = .fin 1) (hmax : st.maxScale = .fin 5) (hscale : st.scale = .fin s)
    (h : (s = 1 ∧ 0 ≤ deltaY) ∨ (s = 5 ∧ deltaY < 0)) :
    (Rounded.onWheel roundDouble st rect clientX clientY deltaY).scale = st.scale := by
  rcases h with ⟨hs, hd⟩ | ⟨hs, hd⟩
  · have hneg : ¬ -deltaY > 0 := by linarith
    simp only [Rounded.onWheel, Rounded.zoomAt, clampScale, hmin, hmax, hscale, hs, hneg,
      if_false, JsNum.fin_mul_fin, JsNum.round, one_mul, roundDouble_wheel_factor,
      roundDouble_wheel_inverse, roundDouble_wheel_inverse_fixed]
    show JsNum.fin (max 1 (min 5 (8188362958855447 / 9007199254740992))) = JsNum.fin 1
    norm_num
  · have hpos : -deltaY > 0 := by linarith
    simp only [Rounded.onWheel, Rounded.zoomAt, clampScale, hmin, hmax, hscale, hs, hpos,
      if_true, JsNum.fin_mul_fin, JsNum.round, roundDouble_wheel_factor, roundDouble_wheel_top]
    show JsNum.fin (max 1 (min 5 (11 / 2))) = JsNum.fin 5
    norm_num

theorem JsNum.round_id (a : JsNum) : JsNum.round id a = a := by
  cases a <;> rfl

/-- With the rounding that does nothing the rounded reading is the exact one. -/
theorem rounded_zoomAt_id (st : ZoomState) (rect : Rect) (clientX clientY : ℚ)
    (nextScale : JsNum) :
    Rounded.zoomAt id st rect clientX clientY nextScale
      = zoomAt st rect clientX clientY nextScale := by
  simp only [Rounded.zoomAt, zoomAt, JsNum.round_id, id]

/-- C18, as stated, fails in double arithmetic.  With `x = 0.1`, scale 1 (the
lower bound) and the anchor at `px = 7`, a desired scale of 1/2 clamps to the
current scale and `zoomAt` recomputes `x` as `7 - ((7 - 0.1) / 1) * 1`, which is
`0.09999999999999964`. -/
theorem C18_counterexample :
    pannedState.scale = .fin 1 ∧ pannedState.minScale = .fin 1 ∧
    pannedState.maxScale = .fin 5 ∧
    pannedState.x = .fin (3602879701896397 / 36028797018963968) ∧
    clampScale pannedState (.fin (1 / 2)) = pannedState.scale ∧
    (Rounded.zoomAt roundDouble pannedState ⟨0, 0⟩ 7 0 (.fin (1 / 2))).x
      = .fin (56294995342131 / 562949953421312) ∧
    (Rounded.zoomAt roundDouble pannedState ⟨0, 0⟩ 7 0 (.fin (1 / 2))).x ≠ pannedState.x := by
  have hclamp : clampScale pannedState (.fin (1 / 2)) = .fin 1 := by
    show JsNum.fin (max 1 (min 5 (1 / 2))) = JsNum.fin 1
    norm_num
  have hx : pannedState.x = .fin (3602879701896397 / 36028797018963968) := by
    show JsNum.fin (roundDouble (1 / 10)) = _
    rw [roundDouble_tenth]
  have hnew : (Rounded.zoomAt roundDouble pannedState ⟨0, 0⟩ 7 0 (.fin (1 / 2))).x
      = .fin (56294995342131 / 562949953421312) := by
    have hs : pannedState.scale = .fin 1 := rfl
    simp only [Rounded.zoomAt, hclamp, hx, hs, sub_zero, roundDouble_seven, JsNum.fin_sub_fin,
      JsNum.round, roundDouble_seven_minus, JsNum.fin_div_fin _ _ one_ne_zero, div_one,
      roundDouble_seven_minus_fixed, JsNum.fin_mul_fin, mul_one, roundDouble_back]
  refine ⟨rfl, rfl, rfl, hx, hclamp, hnew, ?_⟩
  rw [hnew, hx]
  intro h
  injection h with h
  norm_num at h

/-- C18, amended.  In a state with finite translation and scale in `[1, 5]`,
`zoomAt` with any anchor and a desired scale whose clamp equals the current
scale leaves the scale, the pointer map and the flags unchanged whatever the
rounding of each operation, and recomputes the translation as
`px - ((px - x) / scale) * scale`, which in exact arithmetic is `x` (likewise
`y`), so that in exact arithmetic the whole state is unchanged.  In particular a
wheel zoom-out at scale 1 and a wheel zoom-in at scale 5 leave the scale
unchanged in double arithmetic and the whole state unchanged in exact
arithmetic, for any cursor position. -/
theorem C18_no_drift (st : ZoomState) (rect : Rect) (clientX clientY s x y : ℚ)
    (hmin : st.minScale = .fin 1) (hmax : st.maxScale = .fin 5)
    (hscale : st.scale = .fin s) (h1 : 1 ≤ s) (h5 : s ≤ 5)
    (hx : st.x = .fin x) (hy : st.y = .fin y) :
    (∀ (rnd : ℚ → ℚ) (nextScale : JsNum), clampScale st nextScale = st.scale →
      (Rounded.zoomAt rnd st rect clientX clientY nextScale).scale = st.scale ∧
      (Rounded.zoomAt rnd st rect clientX clientY nextScale).x
        = .fin (rnd (rnd (clientX - rect.left)
            - rnd (rnd (rnd (rnd (clientX - rect.left) - x) / s) * s))) ∧
      (Rounded.zoomAt rnd st rect clientX clientY nextScale).y
        = .fin (rnd (rnd (clientY - rect.top)
            - rnd (rnd (rnd (rnd (clientY - rect.top) - y) / s) * s))) ∧
      (Rounded.zoomAt rnd st rect clientX clientY nextScale).pointers = st.pointers ∧
      (Rounded.zoomAt rnd st rect clientX clientY nextScale).panning = st.panning ∧
      (Rounded.zoomAt rnd st rect clientX clientY nextScale).lastPinchDist
        = st.lastPinchDist) ∧
    (∀ nextScale : JsNum, clampScale st nextScale = st.scale →
      Rounded.zoomAt id st rect clientX clientY nextScale = st) ∧
    (∀ (hypot : ℚ → ℚ → ℚ) (deltaY : ℚ), s = 1 → 0 ≤ deltaY →
      (Rounded.onWheel roundDouble st rect clientX clientY deltaY).scale = st.scale ∧
      step hypot st (.wheel rect clientX clientY deltaY) = st) ∧
    (∀ (hypot : ℚ → ℚ → ℚ) (deltaY : ℚ), s = 5 → deltaY < 0 →
      (Rounded.onWheel roundDouble st rect clientX clientY deltaY).scale = st.scale ∧
      step hypot st (.wheel rect clientX clientY deltaY) = st) := by
  have hexact := zoomAt_exact_unchanged st rect clientX clientY s x y hmin hmax hscale h1 h5 hx hy
  have hs0 : s ≠ 0 := by linarith
  refine ⟨?_, ?_,
    fun hypot deltaY hs hd =>
      ⟨rounded_onWheel_scale st rect clientX clientY deltaY s hmin hmax hscale (Or.inl ⟨hs, hd⟩),
        hexact.2.1 hypot deltaY hs hd⟩,
    fun hypot deltaY hs hd =>
      ⟨rounded_onWheel_scale st rect clientX clientY deltaY s hmin hmax hscale (Or.inr ⟨hs, hd⟩),
        hexact.2.2 hypot deltaY hs hd⟩⟩
  · intro rnd nextScale hclamp
    refine ⟨hclamp, ?_, ?_, rfl, rfl, rfl⟩
    · simp only [Rounded.zoomAt, hclamp, hscale, hx, JsNum.fin_sub_fin, JsNum.round,
        JsNum.fin_div_fin _ _ hs0, JsNum.fin_mul_fin]
    · simp only [Rounded.zoomAt, hclamp, hscale, hy, JsNum.fin_sub_fin, JsNum.round,
        JsNum.fin_div_fin _ _ hs0, JsNum.fin_mul_fin]
  · intro nextScale hclamp
    rw [rounded_zoomAt_id]
    exact hexact.1 nextScale hclamp

/-- C18, amended, from the initial state, whose scale is the lower bound: in
double arithmetic a `zoomAt` towards scale 1/2 keeps the scale, and in exact
arithmetic it and a zoom-out notch change nothing. -/
theorem C18_no_drift_witness :
    (Rounded.zoomAt roundDouble ZoomState.init ⟨10, 20⟩ 50 60 (.fin (1 / 2))).scale
      = ZoomState.init.scale ∧
    Rounded.zoomAt id ZoomState.init ⟨10, 20⟩ 50 60 (.fin (1 / 2)) = ZoomState.init ∧
    step axisHypot ZoomState.init (.wheel ⟨10, 20⟩ 50 60 3) = ZoomState.init := by
  have h := C18_no_drift ZoomState.init ⟨10, 20⟩ 50 60 1 0 0 rfl rfl rfl (le_refl _)
    (by norm_num) rfl rfl
  have hclamp : clampScale ZoomState.init (.fin (1 / 2)) = ZoomState.init.scale := by
    show JsNum.fin (max 1 (min 5 (1 / 2))) = JsNum.fin 1
    norm_num
  exact ⟨(h.1 roundDouble (.fin (1 / 2)) hclamp).1, h.2.1 (.fin (1 / 2)) hclamp,
    (h.2.2.1 axisHypot 3 rfl (by norm_num)).2⟩

/-- C4, the failing input.  The first three events of `stillPinch` lead to
`stillPinchBefore`, a state with scale 1 and translation `(0, 0)`, where the
content coordinate under the anchor `(120, 80)` is `(120, 80)`.  The fourth
event makes the handler call `zoomAt(120, 80, scale * (0 / 0))`, a desired scale
of `NaN`: the new scale and translation are `NaN`, and so is the content
coordinate recovered at the anchor. -/
theorem C4_anchor_lost (hypot : ℚ → ℚ → ℚ) (h0 : hypot 0 0 = 0) :
    run hypot (stillPinch.take 3) = stillPinchBefore ∧
    ScaleClamped stillPinchBefore ∧
    stillPinchBefore.scale * (JsNum.fin 0 / JsNum.fin 0) = .nan ∧
    step hypot stillPinchBefore (.pointermove ⟨0, 0⟩ 1 120 80)
      = { zoomAt stillPinchBefore ⟨0, 0⟩ 120 80 .nan with
            lastPinchDist := some 0, panning := false } ∧
    (JsNum.fin (120 - 0) - stillPinchBefore.x) / stillPinchBefore.scale = .fin 120 ∧
    (JsNum.fin (80 - 0) - stillPinchBefore.y) / stillPinchBefore.scale = .fin 80 ∧
    (JsNum.fin (120 - 0) - (zoomAt stillPinchBefore ⟨0, 0⟩ 120 80 .nan).x)
        / (zoomAt stillPinchBefore ⟨0, 0⟩ 120 80 .nan).scale = .nan ∧
    (JsNum.fin (80 - 0) - (zoomAt stillPinchBefore ⟨0, 0⟩ 120 80 .nan).y)
        / (zoomAt stillPinchBefore ⟨0, 0⟩ 120 80 .nan).scale = .nan := by
  refine ⟨?_, ?_, ?_, ?_, ?_, ?_, ?_, ?_⟩
  · simp [run, stillPinch, step, onPointerDown, onPointerMove, mapSet, mapHas,
      ZoomState.init, stillPinchBefore, h0]
  · exact ⟨by simp [stillPinchBefore, ZoomState.init, JsNum.le],
      by simp [stillPinchBefore, ZoomState.init, JsNum.le]⟩
  · simp
  · simp [step, onPointerMove, mapSet, mapHas, stillPinchBefore, ZoomState.init, h0]
  · simp [stillPinchBefore, ZoomState.init, JsNum.fin_div_fin]
  · simp [stillPinchBefore, ZoomState.init, JsNum.fin_div_fin]
  · simp [zoomAt, clampScale]
    rfl
  · simp [zoomAt, clampScale]
    rfl

/-- C4, the failing input with a concrete `hypot`. -/
theorem C4_anchor_lost_witness :
    run axisHypot (stillPinch.take 3) = stillPinchBefore ∧
    (JsNum.fin (120 - 0) - stillPinchBefore.x) / stillPinchBefore.scale = .fin 120 ∧
    (JsNum.fin (120 - 0) - (zoomAt stillPinchBefore ⟨0, 0⟩ 120 80 .nan).x)
        / (zoomAt stillPinchBefore ⟨0, 0⟩ 120 80 .nan).scale = .nan := by
  have h := C4_anchor_lost axisHypot (by simp [axisHypot])
  exact ⟨h.1, h.2.2.2.2.1, h.2.2.2.2.2.2.1⟩

end WalkToMordor
